import Mathlib

/-!
# gh-leak-scanner: a verification development

A shallow embedding of the scanner's three source files

* `utils.go`       : `loadScannedSHAs`, `appendScannedSHA`, `truncate`
* `rateLimiter.go` : `RateLimiter`, `NewRateLimiter`, `RateLimiter.Check`
* `main.go`        : `lookForLeaks`, `worker`, the enumeration loop of `main`

followed by the properties proved about them.

Conventions of the embedding.

* A Go `string` that the program measures or slices (patch text, regex matches,
  `LeakFinding.MatchString`) is a list of bytes: `len` is `List.length` and
  `s[:n]` is `List.take n`.  Strings that are only copied and compared (commit
  SHAs, file names, rule names) are carried as `String`.
* A Go `map[string]struct{}` is the list of its keys.
* Values supplied by the outside world (responses of the repository host, the
  clock, the outcome of a file write) are explicit arguments.
* A channel send appends to the sequence of values sent.  `commitChan` is
  received from while the enumeration runs, so its sends are recorded as they
  are made; `leakChan` is received from only after every worker has returned,
  so its buffer of 1000 findings is part of the state of a worker.
-/

namespace LeakScanner

/-! ## Strings -/

/-- A Go string seen as its bytes. -/
abbrev Bytes := List UInt8

/-- The bytes of a string literal (its UTF-8 encoding). -/
def utf8 (s : String) : Bytes := s.data.flatMap String.utf8EncodeChar

/-! ## utils.go: truncate -/

/-- The Go function `truncate(s string, max int) string`:
`if len(s) > max then s[:max] + "..." else s`.
The bound is a length, so it is a natural number here; the program's only call
passes the constant 80. -/
def truncate (s : Bytes) (max : Nat) : Bytes :=
  if s.length > max then s.take max ++ utf8 "..." else s

/-! ## main.go: rules and lookForLeaks -/

/-- The struct `RegexRule`.  The compiled `*regexp.Regexp` is used by the program
only through `Regex.FindAllString(patch, -1)`, so the field `Regex` is that
function: the successive non-overlapping matches of the pattern in the text. -/
structure RegexRule where
  Name : String
  Pattern : String
  Regex : Bytes → List Bytes

/-- The struct `LeakFinding`; `Date` is an instant in nanoseconds. -/
structure LeakFinding where
  CommitSHA : String
  FileName : String
  Committer : String
  Date : Int
  RuleName : String
  MatchString : Bytes
deriving DecidableEq, Repr

/-- The Go function `lookForLeaks`: the outer loop ranges over the rules, the
inner loop over the matches of the rule, and each match appends one finding to
`results`. -/
def lookForLeaks (regexRules : List RegexRule) (patch : Bytes) (sha fileName committer : String)
    (date : Int) : List LeakFinding :=
  regexRules.foldl
    (fun results rule =>
      (rule.Regex patch).foldl
        (fun results m =>
          results ++ [{ CommitSHA := sha, FileName := fileName, Committer := committer,
                        Date := date, RuleName := rule.Name, MatchString := truncate m 80 }])
        results)
    []

/-! ### The rule shipped in `regexRules` -/

/-- ASCII word bytes, the class behind the assertion `\b`. -/
def isWordByte (b : UInt8) : Bool :=
  (48 ≤ b && b ≤ 57) || (65 ≤ b && b ≤ 90) || b == 95 || (97 ≤ b && b ≤ 122)

/-- Case-insensitive comparison of an input byte with an upper-case ASCII letter. -/
def foldEq (b upper : UInt8) : Bool := b == upper || b == upper + 32

/-- Whether the pattern `(?i)\bTODO\b` matches at the head of `rest`, the byte
before it being `prev` (`none` at the start of the text). -/
def todoAt (prev : Option UInt8) (rest : Bytes) : Bool :=
  (match prev with
   | none => true
   | some p => !isWordByte p) &&
  (match rest with
   | t :: o :: d :: o2 :: tail =>
       foldEq t 84 && foldEq o 79 && foldEq d 68 && foldEq o2 79 &&
       (match tail with
        | [] => true
        | n :: _ => !isWordByte n)
   | _ => false)

/-- The matches of the pattern `(?i)\bTODO\b.*` in a text, left to right: a match
starts at the leftmost position where `todoAt` holds and runs to the end of the
line.  The first argument is the byte before the current position, the second
holds the bytes of the match being read, newest first. -/
def todoScan : Option UInt8 → Option Bytes → Bytes → List Bytes
  | _, none, [] => []
  | _, some acc, [] => [acc.reverse]
  | prev, none, b :: rest =>
      if todoAt prev (b :: rest) then todoScan (some b) (some [b]) rest
      else todoScan (some b) none rest
  | _, some acc, b :: rest =>
      if b == 10 then acc.reverse :: todoScan (some b) none rest
      else todoScan (some b) (some (b :: acc)) rest

/-- The active entry of `regexRules`, compiled. -/
def todoRule : RegexRule :=
  { Name := "TODO Comment", Pattern := "(?i)\\bTODO\\b.*", Regex := todoScan none none }

/-- The variable `regexRules` after `init` has compiled the patterns: the single
active rule, named "TODO Comment". -/
def regexRules : List RegexRule := [todoRule]

/-! ## rateLimiter.go -/

/-- Largest value of a Go `int` (64 bits). -/
def maxInt64 : Int := 9223372036854775807

/-- Smallest value of a Go `int` (64 bits). -/
def minInt64 : Int := -9223372036854775808

/-- Two's-complement wrap-around of 64-bit signed arithmetic. -/
def wrapInt64 (x : Int) : Int :=
  (x + 9223372036854775808) % 18446744073709551616 - 9223372036854775808

/-- The constant `time.Second`, in nanoseconds. -/
def Second : Int := 1000000000

/-- The mutable fields of the struct `RateLimiter`.  The mutex makes each call of
`Check` run alone from its first statement to its return, so a call is one
transition of this state. -/
structure RateLimiter where
  checkCounter : Int
  checkEvery : Int
deriving DecidableEq, Repr

/-- The Go function `NewRateLimiter`: the counter starts at its zero value. -/
def NewRateLimiter (checkEvery : Int) : RateLimiter :=
  { checkCounter := 0, checkEvery := checkEvery }

/-- The fields of `rate.GetCore()` that `Check` reads; `Reset` is an instant in
nanoseconds. -/
structure Rate where
  Remaining : Int
  Reset : Int
deriving DecidableEq, Repr

/-- What the outside world supplies to one call of `Check`: the response that
`client.RateLimits` gives if it is asked, and the reading of the clock during
the call (the value `time.Until` subtracts). -/
structure CheckEnv where
  rateLimits : Except String Rate
  now : Int

/-- How one call of `Check` ended. -/
inductive CheckOutcome where
  /-- Returned at `return // skip check`: the host was not asked. -/
  | skipped
  /-- The host was asked and the request failed; the error is logged. -/
  | queryFailed (err : String)
  /-- The host was asked and reported a non-zero remaining budget. -/
  | rateOk (remaining : Int)
  /-- The host was asked, reported zero, and `time.Sleep d` was called. -/
  | slept (d : Int)
deriving DecidableEq, Repr

/-- Whether the call asked the host for the budget. -/
def CheckOutcome.queried : CheckOutcome → Bool
  | .skipped => false
  | _ => true

/-- The function `time.Until(reset)` as a `time.Duration`: the difference to the
clock, saturated to the 64-bit range. -/
def timeUntil (reset now : Int) : Int :=
  if reset - now < minInt64 then minInt64
  else if maxInt64 < reset - now then maxInt64
  else reset - now

/-- The method `(rl *RateLimiter) Check()`. -/
def RateLimiter.Check (rl : RateLimiter) (env : CheckEnv) : RateLimiter × CheckOutcome :=
  let rl1 : RateLimiter := { rl with checkCounter := wrapInt64 (rl.checkCounter + 1) }
  if rl1.checkCounter < rl1.checkEvery then (rl1, .skipped)
  else
    let rl2 : RateLimiter := { rl1 with checkCounter := 0 }
    match env.rateLimits with
    | .error err => (rl2, .queryFailed err)
    | .ok core =>
        if core.Remaining = 0 then
          (rl2, .slept (wrapInt64 (timeUntil core.Reset env.now + 2 * Second)))
        else (rl2, .rateOk core.Remaining)

/-- Earliest instant at which a call hands control back, the clock reading `now`
during the call: `time.Sleep d` pauses for at least `d` when `d` is positive and
returns at once otherwise; a call that does not sleep returns at once. -/
def earliestReturn (now : Int) : CheckOutcome → Int
  | .slept d => now + max d 0
  | _ => now

/-- A sequence of calls of `Check`, one per element of `envs`: the state left by
each call, paired with how the call ended. -/
def checkTrace : RateLimiter → List CheckEnv → List (RateLimiter × CheckOutcome)
  | _, [] => []
  | rl, env :: envs => rl.Check env :: checkTrace (rl.Check env).1 envs

/-! ## utils.go: the store of scanned commits -/

/-- What `os.Open` returns for the store. -/
inductive OpenResult where
  /-- The error satisfies `os.IsNotExist`. -/
  | notExist
  /-- Any other error. -/
  | failed (err : String)
  /-- The file was opened; `content` is the sequence of runes read from it. -/
  | opened (content : List Char)

/-- The errors of `fmt.Fscanf` that the format "%s\n" can raise. -/
inductive ScanError where
  | eof
  | unexpectedNewline
  | newlineMismatch
deriving DecidableEq, Repr

/-- The function `isSpace` of package `fmt`: the space table restricted to the
basic plane. -/
def isSpace (r : Char) : Bool :=
  let n := r.toNat
  if 65536 ≤ n then false
  else (9 ≤ n && n ≤ 13) || n == 32 || n == 133 || n == 160 || n == 5760 ||
       (8192 ≤ n && n ≤ 8202) || (8232 ≤ n && n ≤ 8233) || n == 8239 || n == 8287 ||
       n == 12288

/-- The method `ss.SkipSpace` in the mode of `Fscanf`, where a newline is not a
space: spaces are dropped, a carriage return directly before a newline is
dropped, and a newline is an error. -/
def SkipSpace : List Char → Except ScanError (List Char)
  | [] => .ok []
  | r :: rest =>
      if r = '\r' ∧ rest.head? = some '\n' then SkipSpace rest
      else if r = '\n' then .error .unexpectedNewline
      else if !isSpace r then .ok (r :: rest)
      else SkipSpace rest

/-- The newline of the format in `ss.advance`: zero or more spaces of the input
and then a newline or the end of the input. -/
def matchNewline : List Char → Except ScanError (List Char)
  | [] => .ok []
  | r :: rest =>
      if r = '\n' then .ok rest
      else if isSpace r then matchNewline rest
      else .error .newlineMismatch

/-- One call `fmt.Fscanf(file, "%s\n", &sha)` on the unread input: the value
stored in `sha` and the input left, or the error.  The verb skips spaces (in
`doScanf`, in `convertString` and in `token`), fails at the end of the input,
reads the run of non-space runes, and then the newline of the format is
matched.  The width limit of the verb (2^30 runes) is not modelled. -/
def Fscanf (input : List Char) : Except ScanError (String × List Char) :=
  match SkipSpace input with
  | .error e => .error e
  | .ok input1 =>
    match SkipSpace input1 with
    | .error e => .error e
    | .ok input2 =>
      if input2 = [] then .error .eof
      else
        match SkipSpace input2 with
        | .error e => .error e
        | .ok input3 =>
          match matchNewline (input3.span (fun r => !isSpace r)).2 with
          | .error e => .error e
          | .ok rest => .ok (String.mk (input3.span (fun r => !isSpace r)).1, rest)

/-- The `for` loop of `loadScannedSHAs`: scan one identifier, leave the loop on
the first error, otherwise add the identifier to the map.  `none` when the
iteration bound is used up. -/
def loadLoop : Nat → List Char → List String → Option (List String)
  | 0, _, _ => none
  | fuel + 1, file, scanned =>
      match Fscanf file with
      | .error _ => some scanned
      | .ok (sha, rest) => loadLoop fuel rest (scanned.insert sha)

/-- The Go function `loadScannedSHAs`: the key set of the returned map, or the
error.  Each pass of the loop consumes input, so one pass more than the length
of the file is enough (`loadScannedSHAs_returns`). -/
def loadScannedSHAs (file : OpenResult) : Option (Except String (List String)) :=
  match file with
  | .notExist => some (.ok [])
  | .failed err => some (.error err)
  | .opened content => (loadLoop (content.length + 1) content []).map .ok

/-- The Go function `appendScannedSHA`: the content of the file after the call
and the returned error.  `ioError` is the failure of `os.OpenFile` or of the
write, if any; the file is created when it is missing, so a missing file is
the empty content. -/
def appendScannedSHA (store : List Char) (ioError : Option String) (sha : String) :
    List Char × Option String :=
  match ioError with
  | some err => (store, some err)
  | none => (store ++ (sha.data ++ ['\n']), none)

/-! ## main.go: worker -/

/-- One entry of `detailedCommit.Files`. -/
structure CommitFile where
  Filename : String
  Patch : Bytes

/-- The fields of the response of `GetCommit` that the worker reads. -/
structure RepositoryCommit where
  CommitterName : String
  CommitterEmail : String
  CommitterDate : Int
  Files : List CommitFile

/-- What the outside world supplies to a worker: the response of `GetCommit` for
an identifier and the failure, if any, of the write that records it. -/
structure WorkerEnv where
  GetCommit : String → Except String RepositoryCommit
  appendError : String → Option String

/-- The capacity of `leakChan`: `make(chan LeakFinding, 1000)`. -/
def leakChanCap : Nat := 1000

/-- What one worker has done so far.  `main` receives from `leakChan` only after
`wg.Wait()` has returned, so while a worker runs nothing leaves the channel:
its buffer holds every finding sent so far, and a send that finds
`leakChanCap` findings in it waits for ever.  The sends of the other workers are
not interleaved here; they only take room away sooner. -/
structure WorkerState where
  /-- Number of calls of `rl.Check()`. -/
  checks : Nat
  /-- The findings in the buffer of `leakChan`, oldest first. -/
  leakChan : List LeakFinding
  /-- The arguments of the calls of `appendScannedSHA`, oldest first. -/
  appendCalls : List String
  /-- The content of `scanned_commits.txt`. -/
  store : List Char
  /-- The worker waits in `leakChan <- finding` on a full buffer. -/
  blocked : Bool
deriving DecidableEq, Repr

/-- The statement `leakChan <- finding`: the finding enters the buffer when there
is room; otherwise the worker waits, and since nothing is received before every
worker has returned, it waits for ever.  A waiting worker does nothing more. -/
def send (st : WorkerState) (finding : LeakFinding) : WorkerState :=
  if st.blocked then st
  else if st.leakChan.length < leakChanCap then
    { st with leakChan := st.leakChan ++ [finding] }
  else { st with blocked := true }

/-- The loop `for _, finding := range findings { leakChan <- finding }`. -/
def sendFindings (st : WorkerState) (findings : List LeakFinding) : WorkerState :=
  findings.foldl send st

/-- The loop over `detailedCommit.Files`. -/
def scanFiles (regexRules : List RegexRule) (sha committer : String) (commitDate : Int)
    (files : List CommitFile) (st : WorkerState) : WorkerState :=
  files.foldl
    (fun st file =>
      sendFindings st (lookForLeaks regexRules file.Patch sha file.Filename committer commitDate))
    st

/-- The body of the loop `for sha := range commitChan` of `worker`.  The call of
`appendScannedSHA` is reached only when every send of the commit has gone
through. -/
def workerStep (regexRules : List RegexRule) (env : WorkerEnv) (st : WorkerState)
    (sha : String) : WorkerState :=
  if st.blocked then st
  else
    let st1 : WorkerState := { st with checks := st.checks + 1 }
    match env.GetCommit sha with
    | .error _ => st1
    | .ok detailedCommit =>
        let committer :=
          detailedCommit.CommitterName ++ " <" ++ detailedCommit.CommitterEmail ++ ">"
        let st2 := scanFiles regexRules sha committer detailedCommit.CommitterDate
          detailedCommit.Files st1
        if st2.blocked then st2
        else
          { st2 with
            appendCalls := st2.appendCalls ++ [sha]
            store := (appendScannedSHA st2.store (env.appendError sha) sha).1 }

/-- The Go function `worker`, run on the identifiers it takes from `commitChan`. -/
def worker (regexRules : List RegexRule) (env : WorkerEnv) (taken : List String)
    (st : WorkerState) : WorkerState :=
  taken.foldl (workerStep regexRules env) st

/-- The findings of one fetched commit, file by file. -/
def commitFindings (regexRules : List RegexRule) (sha : String) (d : RepositoryCommit) :
    List LeakFinding :=
  d.Files.flatMap (fun file =>
    lookForLeaks regexRules file.Patch sha file.Filename
      (d.CommitterName ++ " <" ++ d.CommitterEmail ++ ">") d.CommitterDate)

/-! ## main.go: the enumeration loop -/

/-- One response of `client.Repositories.ListCommits`: the identifiers of the
commits of the page and `resp.NextPage`. -/
structure CommitsPage where
  commits : List String
  NextPage : Int

/-- The repository host as the loop sees it: the response to the request number
`n` of the run, made for the branch head `sha` and the page `page`. -/
abbrev ListCommits := Nat → String → Int → Except String CommitsPage

/-- The variables of the enumeration loop. -/
structure EnumState where
  /-- The key set of the map `scannedSHAs`. -/
  scannedSHAs : List String
  /-- The identifiers sent on `commitChan`, oldest first. -/
  commitChan : List String
  /-- Number of `ListCommits` requests made; `rl.Check()` precedes each one. -/
  requests : Nat
deriving DecidableEq, Repr

/-- How far the enumeration got. -/
inductive EnumResult where
  /-- The loop ran to its end. -/
  | finished (st : EnumState)
  /-- A request failed and `log.Fatalf` ended the process. -/
  | fatal (st : EnumState)
  /-- The page bound is used up and the loop is still asking for pages. -/
  | running (st : EnumState)
deriving DecidableEq, Repr

/-- The variables at the point the enumeration reached. -/
def EnumResult.state : EnumResult → EnumState
  | .finished st => st
  | .fatal st => st
  | .running st => st

/-- The loop `for _, commit := range commits`: an identifier that is not in the
map is put into the map and sent. -/
def enqueueNew (st : EnumState) : List String → EnumState
  | [] => st
  | commitSha :: rest =>
      if commitSha ∈ st.scannedSHAs then enqueueNew st rest
      else
        enqueueNew
          { st with
            scannedSHAs := commitSha :: st.scannedSHAs
            commitChan := st.commitChan ++ [commitSha] }
          rest

/-- The inner `for` loop of one branch, for at most `fuel` pages, starting
with the page number `page`. -/
def fetchPages (host : ListCommits) (branchSha : String) :
    Nat → Int → EnumState → EnumResult
  | 0, _, st => .running st
  | fuel + 1, page, st =>
      let st1 : EnumState := { st with requests := st.requests + 1 }
      match host st.requests branchSha page with
      | .error _ => .fatal st1
      | .ok resp =>
          if resp.commits.length = 0 then .finished st1
          else if resp.NextPage = 0 then .finished (enqueueNew st1 resp.commits)
          else fetchPages host branchSha fuel resp.NextPage (enqueueNew st1 resp.commits)

/-- The loop `for _, branch := range branches`; a branch is given by the SHA of
its head, and its listing starts with `listOptions.Page` at zero. -/
def scanBranches (host : ListCommits) (fuel : Nat) : List String → EnumState → EnumResult
  | [], st => .finished st
  | branchSha :: rest, st =>
      match fetchPages host branchSha fuel 0 st with
      | .finished st1 => scanBranches host fuel rest st1
      | r => r

/-- The enumeration of `main` from the loaded set, with nothing sent yet. -/
def enumerate (host : ListCommits) (fuel : Nat) (branches : List String)
    (scanned : List String) : EnumResult :=
  scanBranches host fuel branches { scannedSHAs := scanned, commitChan := [], requests := 0 }

/-! ## Auxiliary definitions used by the statements -/

/-- The record that `lookForLeaks` builds for the match `m` of the rule `rule`. -/
def mkFinding (sha fileName committer : String) (date : Int) (rule : RegexRule) (m : Bytes) :
    LeakFinding :=
  { CommitSHA := sha, FileName := fileName, Committer := committer, Date := date,
    RuleName := rule.Name, MatchString := truncate m 80 }

/-- The raw matches of all rules on a patch, in rule order. -/
def rawMatches (regexRules : List RegexRule) (patch : Bytes) : List Bytes :=
  regexRules.flatMap (fun rule => rule.Regex patch)

/-- A continuation byte of UTF-8. -/
def isCont (b : UInt8) : Bool := 128 ≤ b && b ≤ 191

/-- The number of bytes of the character that starts with the byte `c` and goes
on with `rest`, as package `unicode/utf8` decodes it: one for an ASCII byte,
two to four for a well-formed sequence, and one for a byte that starts no
well-formed sequence. -/
def runeWidth (c : UInt8) (rest : Bytes) : Nat :=
  if c < 128 then 1
  else if 194 ≤ c && c ≤ 223 then
    match rest with
    | c1 :: _ => if isCont c1 then 2 else 1
    | _ => 1
  else if 224 ≤ c && c ≤ 239 then
    match rest with
    | c1 :: c2 :: _ =>
        if (if c == 224 then 160 else 128) ≤ c1 && c1 ≤ (if c == 237 then 159 else 191) &&
            isCont c2 then 3
        else 1
    | _ => 1
  else if 240 ≤ c && c ≤ 244 then
    match rest with
    | c1 :: c2 :: c3 :: _ =>
        if (if c == 240 then 144 else 128) ≤ c1 && c1 ≤ (if c == 244 then 143 else 191) &&
            isCont c2 && isCont c3 then 4
        else 1
    | _ => 1
  else 1

/-- The number of characters counted from a position that is `skip` bytes before
the start of the next character. -/
def runeCountFrom : Nat → Bytes → Nat
  | _, [] => 0
  | skip + 1, _ :: rest => runeCountFrom skip rest
  | 0, c :: rest => 1 + runeCountFrom (runeWidth c rest - 1) rest

/-- The number of characters of a Go string, as `utf8.RuneCountInString` counts
them. -/
def runeCount (s : Bytes) : Nat := runeCountFrom 0 s

/-- A second rule for examples: the pattern `(?s).+`, whose only match on a
non-empty text is the whole text. -/
def wholeTextRule : RegexRule :=
  { Name := "Whole Text", Pattern := "(?s).+", Regex := fun text => if text = [] then [] else [text] }

/-- The state of a result, transformed. -/
def EnumResult.mapState (f : EnumState → EnumState) : EnumResult → EnumResult
  | .finished st => .finished (f st)
  | .fatal st => .fatal (f st)
  | .running st => .running (f st)

/-- The invariant of the enumeration started from the set `S0`: nothing was sent
twice, whatever was sent is in the map and was not in `S0`, and the map still
holds `S0`. -/
def EnumInv (S0 : List String) (st : EnumState) : Prop :=
  st.commitChan.Nodup ∧
  (∀ x ∈ st.commitChan, x ∈ st.scannedSHAs ∧ x ∉ S0) ∧
  (∀ x ∈ S0, x ∈ st.scannedSHAs)

/-- A host whose only page lists A, B and A again, for every branch. -/
def listingTwice : ListCommits :=
  fun _ _ _ => .ok { commits := ["A", "B", "A"], NextPage := 0 }

/-- The host of the scenario: one page listing the commits A, B and C. -/
def listingABC : ListCommits :=
  fun _ _ _ => .ok { commits := ["A", "B", "C"], NextPage := 0 }

/-- Whether the fetch of the commit succeeds. -/
def WorkerEnv.fetched (env : WorkerEnv) (sha : String) : Bool :=
  match env.GetCommit sha with
  | .ok _ => true
  | .error _ => false

/-- What a worker sends for an identifier it has taken: the findings of the
commit when the fetch succeeds, nothing when it fails. -/
def WorkerEnv.findingsFor (regexRules : List RegexRule) (env : WorkerEnv) (sha : String) :
    List LeakFinding :=
  match env.GetCommit sha with
  | .ok d => commitFindings regexRules sha d
  | .error _ => []

/-- The host of the scenario: commit A changes one file with one TODO line,
commit C changes one file without any, and every other fetch fails. -/
def scenarioEnv : WorkerEnv :=
  { GetCommit := fun sha =>
      if sha = "A" then
        .ok { CommitterName := "dev", CommitterEmail := "dev@example.com", CommitterDate := 0,
              Files := [{ Filename := "main.go", Patch := utf8 "+ // TODO fix this" }] }
      else if sha = "C" then
        .ok { CommitterName := "dev", CommitterEmail := "dev@example.com", CommitterDate := 0,
              Files := [{ Filename := "util.go", Patch := utf8 "+ return nil" }] }
      else .error "not found"
    appendError := fun _ => none }

/-- A worker that has done nothing yet, with an empty store and an empty
channel. -/
def WorkerState.init : WorkerState :=
  { checks := 0, leakChan := [], appendCalls := [], store := [], blocked := false }

/-- What one run of the program leaves behind: the identifiers it sent on
`commitChan` and the content of the store. -/
structure RunResult where
  sent : List String
  store : List Char
deriving DecidableEq, Repr

/-- One run of `main` on an existing store, up to `wg.Wait()`: the store is
loaded, the enumeration sends the identifiers that are not in the loaded set,
and the workers take what was sent.  The pool is run as one worker that takes
the identifiers in the order sent; which worker takes an identifier changes the
order of the lines of the store, not the lines. -/
def mainRun (host : ListCommits) (fuel : Nat) (branches : List String)
    (regexRules : List RegexRule) (env : WorkerEnv) (store : List Char) : Option RunResult :=
  match loadScannedSHAs (.opened store) with
  | some (.ok scannedSHAs) =>
      some
        { sent := (enumerate host fuel branches scannedSHAs).state.commitChan
          store :=
            (worker regexRules env (enumerate host fuel branches scannedSHAs).state.commitChan
              { WorkerState.init with store := store }).store }
  | _ => none

/-- A host on which the fetch of commit A succeeds (one file with one TODO line)
and every other fetch fails. -/
def fetchOnlyA : WorkerEnv :=
  { GetCommit := fun sha =>
      if sha = "A" then
        .ok { CommitterName := "dev", CommitterEmail := "dev@example.com", CommitterDate := 0,
              Files := [{ Filename := "main.go", Patch := utf8 "+ // TODO fix this" }] }
      else .error "server error"
    appendError := fun _ => none }

/-- A patch of `n` added lines, each the word TODO. -/
def todoLines (n : Nat) : Bytes :=
  (List.replicate n (utf8 "TODO\n")).flatten

/-- A commit that changes one file by 1001 lines that each match the shipped
rule. -/
def floodCommit : RepositoryCommit :=
  { CommitterName := "dev", CommitterEmail := "dev@example.com", CommitterDate := 0,
    Files := [{ Filename := "notes.txt", Patch := todoLines 1001 }] }

/-- A host on which every fetch succeeds and returns `floodCommit`. -/
def floodEnv : WorkerEnv :=
  { GetCommit := fun _ => .ok floodCommit
    appendError := fun _ => none }

/-- The content of a store that holds the identifiers `ws`, one per line. -/
def storeLines (ws : List String) : List Char :=
  ws.flatMap (fun w => w.data ++ ['\n'])

/-- An identifier that `%s` reads back whole: not empty and free of spaces. -/
def WellFormedSHA (w : String) : Prop :=
  w.data ≠ [] ∧ ∀ c ∈ w.data, isSpace c = false

/-- A space other than the newline. -/
def Blank (c : Char) : Prop := isSpace c = true ∧ c ≠ '\n'

/-- The text of one line of the store without its end: spaces, an identifier,
spaces.  A carriage return before the newline is one of the spaces after the
identifier. -/
structure StoreLine where
  pre : List Char
  sha : String
  post : List Char

/-- The line holds one well-formed identifier between spaces. -/
def StoreLine.Valid (l : StoreLine) : Prop :=
  (∀ c ∈ l.pre, Blank c) ∧ WellFormedSHA l.sha ∧ (∀ c ∈ l.post, Blank c)

/-- The characters of the line, without the newline. -/
def StoreLine.text (l : StoreLine) : List Char := l.pre ++ (l.sha.data ++ l.post)

/-- The content made of the given lines, each ended by a newline. -/
def linesText (ls : List StoreLine) : List Char :=
  ls.flatMap (fun l => l.text ++ ['\n'])

/-- The map that holds the identifiers of the given lines, put in one by one. -/
def shaSet (ls : List StoreLine) : List String :=
  ls.foldl (fun s l => s.insert l.sha) []

/-! # Properties -/

/-! ## truncate and lookForLeaks -/

theorem utf8_dots_length : (utf8 "...").length = 3 := by decide

theorem truncate_of_le (s : Bytes) (max : Nat) (h : s.length ≤ max) : truncate s max = s := by
  unfold truncate
  rw [if_neg (by omega)]

theorem truncate_of_gt (s : Bytes) (max : Nat) (h : s.length > max) :
    truncate s max = s.take max ++ utf8 "..." := by
  unfold truncate
  rw [if_pos h]

theorem truncate_length_le (s : Bytes) (max : Nat) : (truncate s max).length ≤ max + 3 := by
  by_cases h : s.length > max
  · rw [truncate_of_gt s max h, List.length_append, List.length_take, utf8_dots_length]
    omega
  · rw [truncate_of_le s max (by omega)]
    omega

theorem foldl_append_singleton {α β : Type} (g : α → β) (ms : List α) (acc : List β) :
    ms.foldl (fun results m => results ++ [g m]) acc = acc ++ ms.map g := by
  induction ms generalizing acc with
  | nil => simp
  | cons m ms ih => simp [ih]

theorem foldl_append_flatMap {α β : Type} (h : α → List β) (rules : List α) (acc : List β) :
    rules.foldl (fun results rule => results ++ h rule) acc = acc ++ rules.flatMap h := by
  induction rules generalizing acc with
  | nil => simp
  | cons r rs ih => simp [ih]

/-- The two nested loops of `lookForLeaks` produce, rule after rule, one record
per match. -/
theorem lookForLeaks_eq (regexRules : List RegexRule) (patch : Bytes)
    (sha fileName committer : String) (date : Int) :
    lookForLeaks regexRules patch sha fileName committer date =
      regexRules.flatMap (fun rule =>
        (rule.Regex patch).map (mkFinding sha fileName committer date rule)) := by
  unfold lookForLeaks
  have h : ∀ (results : List LeakFinding) (rule : RegexRule),
      (rule.Regex patch).foldl
        (fun results m =>
          results ++ [{ CommitSHA := sha, FileName := fileName, Committer := committer,
                        Date := date, RuleName := rule.Name, MatchString := truncate m 80 }])
        results
      = results ++ (rule.Regex patch).map (mkFinding sha fileName committer date rule) := by
    intro results rule
    exact foldl_append_singleton (mkFinding sha fileName committer date rule) _ results
  simp only [h]
  rw [foldl_append_flatMap]
  simp

theorem lookForLeaks_matchStrings (regexRules : List RegexRule) (patch : Bytes)
    (sha fileName committer : String) (date : Int) :
    (lookForLeaks regexRules patch sha fileName committer date).map (fun f => f.MatchString) =
      (rawMatches regexRules patch).map (fun m => truncate m 80) := by
  rw [lookForLeaks_eq, rawMatches]
  induction regexRules with
  | nil => simp
  | cons r rs ih =>
    simp only [List.flatMap_cons, List.map_append, ih, List.map_map]
    rfl

theorem mem_lookForLeaks (regexRules : List RegexRule) (patch : Bytes)
    (sha fileName committer : String) (date : Int) (f : LeakFinding) :
    f ∈ lookForLeaks regexRules patch sha fileName committer date ↔
      ∃ rule ∈ regexRules, ∃ m ∈ rule.Regex patch,
        f = mkFinding sha fileName committer date rule m := by
  rw [lookForLeaks_eq]
  simp only [List.mem_flatMap, List.mem_map]
  constructor
  · rintro ⟨rule, hr, m, hm, rfl⟩
    exact ⟨rule, hr, m, hm, rfl⟩
  · rintro ⟨rule, hr, m, hm, rfl⟩
    exact ⟨rule, hr, m, hm, rfl⟩

theorem runeCount_ascii (s : Bytes) (h : ∀ b ∈ s, b < 128) : runeCount s = s.length := by
  unfold runeCount
  induction s with
  | nil => rfl
  | cons c rest ih =>
    have hc : c < 128 := h c (List.mem_cons_self _ _)
    have hw : runeWidth c rest = 1 := by
      unfold runeWidth
      rw [if_pos hc]
    unfold runeCountFrom
    rw [hw, ih (fun b hb => h b (List.mem_cons_of_mem _ hb)), List.length_cons]
    omega

/-- C3, as stated, fails: the match "ééé" has three characters (six bytes), more
than the bound 2, and `truncate` returns "é...": four characters, not 2 + 3, and
its first two characters are not the first two characters of the match.  With
the bound 1 the match "éé" is cut inside its first character. -/
theorem truncation_law_counterexample :
    runeCount (utf8 "ééé") = 3 ∧
    (utf8 "ééé").length = 6 ∧
    truncate (utf8 "ééé") 2 = utf8 "é..." ∧
    runeCount (truncate (utf8 "ééé") 2) = 4 ∧
    ¬ (runeCount (truncate (utf8 "ééé") 2) = 2 + 3) ∧
    truncate (utf8 "ééé") 2 ≠ utf8 "éé..." ∧
    truncate (utf8 "éé") 1 = [195, 46, 46, 46] := by
  decide

/-- C3, amended.  For every text `s` of more than `max` bytes, `truncate s max`
is the first `max` bytes of `s` followed by the three bytes of "...": it has
exactly `max + 3` bytes, and its first `max` bytes are the first `max` bytes of
`s`.  When `s` is ASCII, bytes are characters, and the result has exactly
`max + 3` characters.  In `lookForLeaks` the bound is 80: the matched texts of
the findings are the raw matches passed through `truncate · 80`, in order. -/
theorem truncation_law (s : Bytes) (max : Nat) (h : s.length > max) :
    (truncate s max).length = max + 3 ∧
    truncate s max = s.take max ++ utf8 "..." ∧
    (truncate s max).take max = s.take max ∧
    (truncate s max).drop max = utf8 "..." ∧
    ((∀ b ∈ s, b < 128) → runeCount s = s.length ∧ runeCount (truncate s max) = max + 3) ∧
    (∀ (rules : List RegexRule) (patch : Bytes) (sha fileName committer : String) (date : Int),
      (lookForLeaks rules patch sha fileName committer date).map (fun f => f.MatchString) =
        (rawMatches rules patch).map (fun m => truncate m 80)) := by
  have hlen : (s.take max).length = max := by
    rw [List.length_take]
    omega
  have hlen3 : (truncate s max).length = max + 3 := by
    rw [truncate_of_gt s max h, List.length_append, hlen, utf8_dots_length]
  refine ⟨hlen3, truncate_of_gt s max h, ?_, ?_, ?_, ?_⟩
  · rw [truncate_of_gt s max h, List.take_append_of_le_length (by omega)]
    rw [List.take_of_length_le (by omega)]
  · rw [truncate_of_gt s max h, List.drop_append_of_le_length (by omega)]
    rw [List.drop_of_length_le (by omega)]
    simp
  · intro hascii
    refine ⟨runeCount_ascii s hascii, ?_⟩
    rw [runeCount_ascii, hlen3]
    intro b hb
    rw [truncate_of_gt s max h, List.mem_append] at hb
    rcases hb with hb | hb
    · exact hascii b (List.mem_of_mem_take hb)
    · revert b
      decide
  · intro rules patch sha fileName committer date
    exact lookForLeaks_matchStrings rules patch sha fileName committer date

/-- C3 amended, at an ASCII match of 81 bytes under the bound 80 of
`lookForLeaks`: the result has 83 bytes, which are 83 characters. -/
theorem truncation_law_witness :
    (List.replicate 81 (97 : UInt8)).length > 80 ∧
    (truncate (List.replicate 81 (97 : UInt8)) 80).length = 80 + 3 ∧
    runeCount (truncate (List.replicate 81 (97 : UInt8)) 80) = 80 + 3 :=
  ⟨by decide, (truncation_law (List.replicate 81 (97 : UInt8)) 80 (by decide)).1,
    ((truncation_law (List.replicate 81 (97 : UInt8)) 80 (by decide)).2.2.2.2.1
      (by
        intro b hb
        rw [List.eq_of_mem_replicate hb]
        decide)).2⟩

/-- C10 (bounded match text).  Every finding returned by `lookForLeaks` has a
`MatchString` of at most 83 bytes; the matched texts are the raw matches passed
through `truncate · 80`, so each finding comes from a raw match `m` and carries
`m` unchanged when `m` has at most 80 bytes; in general `truncate s max = s`
whenever `len s ≤ max`. -/
theorem bounded_match_text (rules : List RegexRule) (patch : Bytes)
    (sha fileName committer : String) (date : Int) :
    (∀ f ∈ lookForLeaks rules patch sha fileName committer date, f.MatchString.length ≤ 83) ∧
    (lookForLeaks rules patch sha fileName committer date).map (fun f => f.MatchString) =
        (rawMatches rules patch).map (fun m => truncate m 80) ∧
    (∀ f ∈ lookForLeaks rules patch sha fileName committer date,
      ∃ m ∈ rawMatches rules patch,
        f.MatchString = truncate m 80 ∧ (m.length ≤ 80 → f.MatchString = m)) ∧
    (∀ (s : Bytes) (max : Nat), s.length ≤ max → truncate s max = s) := by
  refine ⟨?_, lookForLeaks_matchStrings rules patch sha fileName committer date, ?_,
    truncate_of_le⟩
  · intro f hf
    obtain ⟨rule, _, m, _, rfl⟩ := (mem_lookForLeaks rules patch sha fileName committer date f).1 hf
    exact truncate_length_le m 80
  · intro f hf
    obtain ⟨rule, hr, m, hm, rfl⟩ := (mem_lookForLeaks rules patch sha fileName committer date f).1 hf
    refine ⟨m, ?_, rfl, fun hle => truncate_of_le m 80 hle⟩
    unfold rawMatches
    exact List.mem_flatMap.2 ⟨rule, hr, hm⟩

/-- C10 on the shipped rule: the text after "+ // " is reported unchanged. -/
theorem bounded_match_text_witness :
    (lookForLeaks regexRules (utf8 "+ // TODO fix this") "A" "main.go" "dev <d@x>" 0).map
        (fun f => f.MatchString) = [utf8 "TODO fix this"] ∧
    (utf8 "TODO fix this").length ≤ 80 ∧
    truncate (utf8 "TODO fix this") 80 = utf8 "TODO fix this" :=
  ⟨by decide, by decide,
    (bounded_match_text regexRules (utf8 "+ // TODO fix this") "A" "main.go" "dev <d@x>" 0).2.2.2
      (utf8 "TODO fix this") 80 (by decide)⟩

theorem length_flatMap_map {α β : Type} (rules : List α) (ms : α → List β) :
    (rules.flatMap ms).length = (rules.map (fun rule => (ms rule).length)).sum := by
  induction rules with
  | nil => simp
  | cons r rs ih => simp [ih]

/-- C4 (rule independence).  For every rule list and patch, `lookForLeaks`
returns exactly one finding per (rule, match) pair, rule after rule in rule
order and match after match within a rule: no rule stops another.  So the
number of findings is the sum of the rules' match counts, the rule names of the
findings are each rule's name repeated once per match, every finding carries the
SHA and the file name passed in, and two rules with different names that both
match yield two different findings, one under each name. -/
theorem rule_independence (rules : List RegexRule) (patch : Bytes)
    (sha fileName committer : String) (date : Int) :
    lookForLeaks rules patch sha fileName committer date =
      rules.flatMap (fun rule =>
        (rule.Regex patch).map (fun m =>
          { CommitSHA := sha, FileName := fileName, Committer := committer, Date := date,
            RuleName := rule.Name, MatchString := truncate m 80 })) ∧
    (lookForLeaks rules patch sha fileName committer date).length =
      (rules.map (fun rule => (rule.Regex patch).length)).sum ∧
    (lookForLeaks rules patch sha fileName committer date).map (fun f => f.RuleName) =
      rules.flatMap (fun rule => List.replicate (rule.Regex patch).length rule.Name) ∧
    (∀ f ∈ lookForLeaks rules patch sha fileName committer date,
      f.CommitSHA = sha ∧ f.FileName = fileName) ∧
    (∀ r1 ∈ rules, ∀ r2 ∈ rules, r1.Name ≠ r2.Name →
      ∀ m1 ∈ r1.Regex patch, ∀ m2 ∈ r2.Regex patch,
        ∃ f1 ∈ lookForLeaks rules patch sha fileName committer date,
        ∃ f2 ∈ lookForLeaks rules patch sha fileName committer date,
          f1 ≠ f2 ∧
          f1.RuleName = r1.Name ∧ f1.MatchString = truncate m1 80 ∧
          f2.RuleName = r2.Name ∧ f2.MatchString = truncate m2 80 ∧
          f1.CommitSHA = sha ∧ f2.CommitSHA = sha ∧
          f1.FileName = fileName ∧ f2.FileName = fileName) := by
  refine ⟨lookForLeaks_eq rules patch sha fileName committer date, ?_, ?_, ?_, ?_⟩
  · rw [lookForLeaks_eq, length_flatMap_map]
    simp
  · rw [lookForLeaks_eq]
    induction rules with
    | nil => simp
    | cons r rs ih =>
      simp only [List.flatMap_cons, List.map_append, ih, List.map_map]
      congr 1
      rw [List.eq_replicate_iff]
      simp [mkFinding]
  · intro f hf
    obtain ⟨rule, _, m, _, rfl⟩ := (mem_lookForLeaks rules patch sha fileName committer date f).1 hf
    exact ⟨rfl, rfl⟩
  · intro r1 h1 r2 h2 hne m1 hm1 m2 hm2
    refine ⟨mkFinding sha fileName committer date r1 m1,
      (mem_lookForLeaks rules patch sha fileName committer date _).2 ⟨r1, h1, m1, hm1, rfl⟩,
      mkFinding sha fileName committer date r2 m2,
      (mem_lookForLeaks rules patch sha fileName committer date _).2 ⟨r2, h2, m2, hm2, rfl⟩,
      ?_, rfl, rfl, rfl, rfl, rfl, rfl, rfl, rfl⟩
    intro heq
    exact hne (congrArg LeakFinding.RuleName heq)

/-- C4 on one diff line that matches both the shipped rule and `wholeTextRule`:
two findings, one per rule, in rule order, with the same commit and file. -/
theorem rule_independence_witness :
    (lookForLeaks [todoRule, wholeTextRule] (utf8 "+ // TODO fix this") "A" "main.go" "dev" 0
      = [{ CommitSHA := "A", FileName := "main.go", Committer := "dev", Date := 0,
           RuleName := "TODO Comment", MatchString := utf8 "TODO fix this" },
         { CommitSHA := "A", FileName := "main.go", Committer := "dev", Date := 0,
           RuleName := "Whole Text", MatchString := utf8 "+ // TODO fix this" }]) ∧
    (∃ f1 ∈ lookForLeaks [todoRule, wholeTextRule] (utf8 "+ // TODO fix this") "A" "main.go" "dev" 0,
     ∃ f2 ∈ lookForLeaks [todoRule, wholeTextRule] (utf8 "+ // TODO fix this") "A" "main.go" "dev" 0,
      f1 ≠ f2 ∧
      f1.RuleName = "TODO Comment" ∧ f1.MatchString = truncate (utf8 "TODO fix this") 80 ∧
      f2.RuleName = "Whole Text" ∧ f2.MatchString = truncate (utf8 "+ // TODO fix this") 80 ∧
      f1.CommitSHA = "A" ∧ f2.CommitSHA = "A" ∧
      f1.FileName = "main.go" ∧ f2.FileName = "main.go") :=
  ⟨by decide,
    (rule_independence [todoRule, wholeTextRule] (utf8 "+ // TODO fix this") "A" "main.go" "dev"
      0).2.2.2.2
      todoRule (List.mem_cons_self _ _) wholeTextRule (List.mem_cons_of_mem _ (List.mem_cons_self _ _))
      (by decide) (utf8 "TODO fix this") (by decide) (utf8 "+ // TODO fix this") (by decide)⟩

/-! ## RateLimiter.Check -/

theorem wrapInt64_of_range (x : Int) (hlo : minInt64 ≤ x) (hhi : x ≤ maxInt64) :
    wrapInt64 x = x := by
  unfold wrapInt64
  unfold minInt64 at hlo
  unfold maxInt64 at hhi
  omega

/-- A call that finds the incremented counter below the threshold only stores
the incremented counter. -/
theorem Check_not_due (rl : RateLimiter) (env : CheckEnv) (hlo : minInt64 ≤ rl.checkCounter + 1)
    (hlt : rl.checkCounter + 1 < rl.checkEvery) (hmax : rl.checkEvery ≤ maxInt64) :
    rl.Check env = ({ checkCounter := rl.checkCounter + 1, checkEvery := rl.checkEvery }, .skipped) := by
  have hw : wrapInt64 (rl.checkCounter + 1) = rl.checkCounter + 1 :=
    wrapInt64_of_range _ hlo (by omega)
  unfold RateLimiter.Check
  simp only [hw]
  rw [if_pos hlt]

/-- A call that finds the incremented counter at or above the threshold resets
the counter and asks the host. -/
theorem Check_due (rl : RateLimiter) (env : CheckEnv) (hlo : minInt64 ≤ rl.checkCounter + 1)
    (hhi : rl.checkCounter < maxInt64) (hdue : rl.checkEvery ≤ rl.checkCounter + 1) :
    rl.Check env =
      ({ checkCounter := 0, checkEvery := rl.checkEvery },
        match env.rateLimits with
        | .error err => .queryFailed err
        | .ok core =>
            if core.Remaining = 0 then
              .slept (wrapInt64 (timeUntil core.Reset env.now + 2 * Second))
            else .rateOk core.Remaining) := by
  have hw : wrapInt64 (rl.checkCounter + 1) = rl.checkCounter + 1 :=
    wrapInt64_of_range _ hlo (by omega)
  unfold RateLimiter.Check
  simp only [hw]
  rw [if_neg (by omega)]
  cases env.rateLimits with
  | error err => rfl
  | ok core =>
    by_cases hz : core.Remaining = 0
    · simp [hz]
    · simp [hz]

theorem queried_of_due (env : CheckEnv) :
    (match env.rateLimits with
      | .error err => CheckOutcome.queryFailed err
      | .ok core =>
          if core.Remaining = 0 then
            CheckOutcome.slept (wrapInt64 (timeUntil core.Reset env.now + 2 * Second))
          else CheckOutcome.rateOk core.Remaining).queried = true := by
  cases env.rateLimits with
  | error err => rfl
  | ok core =>
    by_cases hz : core.Remaining = 0
    · simp [hz, CheckOutcome.queried]
    · simp [hz, CheckOutcome.queried]

/-- One call from a state with `0 ≤ counter < checkEvery`: the threshold is
kept, the counter advances modulo the threshold, and the host is asked exactly
when the counter comes back to zero. -/
theorem Check_step (rl : RateLimiter) (env : CheckEnv) (h0 : 0 ≤ rl.checkCounter)
    (hlt : rl.checkCounter < rl.checkEvery) (hmax : rl.checkEvery ≤ maxInt64) :
    (rl.Check env).1.checkEvery = rl.checkEvery ∧
    (rl.Check env).1.checkCounter = (rl.checkCounter + 1) % rl.checkEvery ∧
    0 ≤ (rl.Check env).1.checkCounter ∧
    (rl.Check env).1.checkCounter < rl.checkEvery ∧
    ((rl.Check env).2.queried = true ↔ (rl.Check env).1.checkCounter = 0) := by
  have hmin : minInt64 ≤ rl.checkCounter + 1 := by
    unfold minInt64
    omega
  by_cases hd : rl.checkCounter + 1 < rl.checkEvery
  · rw [Check_not_due rl env hmin hd hmax]
    refine ⟨rfl, ?_, ?_, hd, ?_⟩
    · exact (Int.emod_eq_of_lt (by omega) hd).symm
    · show 0 ≤ rl.checkCounter + 1
      omega
    · show CheckOutcome.skipped.queried = true ↔ rl.checkCounter + 1 = 0
      constructor
      · intro h
        cases h
      · intro h
        omega
  · have hEq : rl.checkCounter + 1 = rl.checkEvery := by omega
    rw [Check_due rl env hmin (by omega) (by omega)]
    refine ⟨rfl, ?_, le_refl _, by show (0 : Int) < rl.checkEvery; omega, ?_⟩
    · show (0 : Int) = (rl.checkCounter + 1) % rl.checkEvery
      rw [hEq, Int.emod_self]
    · constructor
      · intro _
        rfl
      · intro _
        exact queried_of_due env

theorem checkTrace_length (rl : RateLimiter) (envs : List CheckEnv) :
    (checkTrace rl envs).length = envs.length := by
  induction envs generalizing rl with
  | nil => rfl
  | cons env envs ih => simp [checkTrace, ih]

/-- The call number `k + 1` of a run that starts with `0 ≤ counter < checkEvery`. -/
theorem checkTrace_spec (envs : List CheckEnv) (rl : RateLimiter) (h0 : 0 ≤ rl.checkCounter)
    (hlt : rl.checkCounter < rl.checkEvery) (hmax : rl.checkEvery ≤ maxInt64)
    (k : Nat) (st : RateLimiter) (out : CheckOutcome)
    (hk : (checkTrace rl envs)[k]? = some (st, out)) :
    st.checkEvery = rl.checkEvery ∧
    st.checkCounter = (rl.checkCounter + (k : Int) + 1) % rl.checkEvery ∧
    (out.queried = true ↔ st.checkCounter = 0) := by
  induction envs generalizing rl k with
  | nil => simp [checkTrace] at hk
  | cons env envs ih =>
    obtain ⟨hE, hC, hC0, hClt, hQ⟩ := Check_step rl env h0 hlt hmax
    cases k with
    | zero =>
      simp only [checkTrace, List.getElem?_cons_zero, Option.some.injEq] at hk
      have e1 : (rl.Check env).1 = st := by rw [hk]
      have e2 : (rl.Check env).2 = out := by rw [hk]
      rw [e1] at hE hC hQ
      rw [e2] at hQ
      refine ⟨hE, ?_, hQ⟩
      rw [hC]
      simp
    | succ k =>
      simp only [checkTrace, List.getElem?_cons_succ] at hk
      obtain ⟨hE2, hC2, hQ2⟩ := ih (rl.Check env).1 hC0 (by rw [hE]; exact hClt)
        (by rw [hE]; exact hmax) k hk
      refine ⟨by rw [hE2, hE], ?_, hQ2⟩
      rw [hC2, hE, hC, Int.add_assoc, Int.emod_add_emod]
      congr 1
      push_cast
      ring

/-- C6 (sampling of budget queries).  For a limiter built with
`checkEvery = N`, `1 ≤ N` (and `N` in the range of a Go `int`), in every sequence
of calls of `Check` there is one entry per call, and the call number `k + 1`
asks the host exactly when `N` divides `k + 1`; after it the counter is
`(k + 1) mod N`, so it lies in `[0, N)` and is zero exactly when the call asked
the host. -/
theorem sampling_of_budget_queries (N : Int) (h1 : 1 ≤ N) (hmax : N ≤ maxInt64)
    (envs : List CheckEnv) :
    (checkTrace (NewRateLimiter N) envs).length = envs.length ∧
    ∀ (k : Nat) (st : RateLimiter) (out : CheckOutcome),
      (checkTrace (NewRateLimiter N) envs)[k]? = some (st, out) →
        (out.queried = true ↔ N ∣ ((k : Int) + 1)) ∧
        0 ≤ st.checkCounter ∧ st.checkCounter < N ∧
        (st.checkCounter = 0 ↔ out.queried = true) ∧
        st.checkCounter = ((k : Int) + 1) % N ∧
        st.checkEvery = N := by
  refine ⟨checkTrace_length _ envs, ?_⟩
  intro k st out hk
  obtain ⟨hE, hC, hQ⟩ := checkTrace_spec envs (NewRateLimiter N) (le_refl _)
    (by show (0 : Int) < N; omega) hmax k st out hk
  have hE2 : st.checkEvery = N := hE
  have hC2 : st.checkCounter = ((k : Int) + 1) % N := by
    rw [hC]
    show ((0 : Int) + (k : Int) + 1) % N = ((k : Int) + 1) % N
    rw [Int.zero_add]
  refine ⟨?_, ?_, ?_, hQ.symm, hC2, hE2⟩
  · rw [hQ, hC2]
    exact Int.dvd_iff_emod_eq_zero.symm
  · rw [hC2]
    exact Int.emod_nonneg _ (by omega)
  · rw [hC2]
    exact Int.emod_lt_of_pos _ (by omega)

/-- C6 with the threshold 10 of `main`: of ten calls, the tenth asks the host
and leaves the counter at zero. -/
theorem sampling_of_budget_queries_witness :
    (1 : Int) ≤ 10 ∧ (10 : Int) ≤ maxInt64 ∧
    (checkTrace (NewRateLimiter 10)
        (List.replicate 10 { rateLimits := .ok { Remaining := 5000, Reset := 0 }, now := 0 }))[9]?
      = some ({ checkCounter := 0, checkEvery := 10 }, .rateOk 5000) ∧
    ((CheckOutcome.rateOk 5000).queried = true ↔ (10 : Int) ∣ ((9 : Nat) : Int) + 1) :=
  ⟨by decide, by decide, by decide,
    ((sampling_of_budget_queries 10 (by decide) (by decide)
      (List.replicate 10 { rateLimits := .ok { Remaining := 5000, Reset := 0 }, now := 0 })).2
      9 { checkCounter := 0, checkEvery := 10 } (.rateOk 5000) (by decide)).1⟩

/-- C9 (a failed budget query is not fatal).  On a call of `Check` that is due
to ask the host (the incremented counter reaches `checkEvery`, `1 ≤ checkEvery`)
and whose request fails, `Check` returns with the counter reset to zero, having
requested no sleep; and in every continuation the host is next asked exactly on
the calls whose number is a multiple of `checkEvery`, so not before another
`checkEvery` calls. -/
theorem failed_query_not_fatal (rl : RateLimiter) (env : CheckEnv) (err : String)
    (h1 : 1 ≤ rl.checkEvery) (hlo : 0 ≤ rl.checkCounter) (hhi : rl.checkCounter < maxInt64)
    (hdue : rl.checkEvery ≤ rl.checkCounter + 1) (henv : env.rateLimits = .error err) :
    rl.Check env = ({ checkCounter := 0, checkEvery := rl.checkEvery }, .queryFailed err) ∧
    (∀ d, (rl.Check env).2 ≠ .slept d) ∧
    earliestReturn env.now (rl.Check env).2 = env.now ∧
    ∀ (envs : List CheckEnv) (k : Nat) (st : RateLimiter) (out : CheckOutcome),
      (checkTrace (rl.Check env).1 envs)[k]? = some (st, out) →
        (out.queried = true ↔ rl.checkEvery ∣ ((k : Int) + 1)) := by
  have hmin : minInt64 ≤ rl.checkCounter + 1 := by
    unfold minInt64
    omega
  have hC : rl.Check env = ({ checkCounter := 0, checkEvery := rl.checkEvery }, .queryFailed err) := by
    rw [Check_due rl env hmin hhi hdue, henv]
  refine ⟨hC, ?_, ?_, ?_⟩
  · intro d h
    rw [hC] at h
    cases h
  · rw [hC]
    rfl
  · intro envs k st out hk
    rw [hC] at hk
    obtain ⟨_, hCk, hQ⟩ := checkTrace_spec envs { checkCounter := 0, checkEvery := rl.checkEvery }
      (le_refl _) (by show (0 : Int) < rl.checkEvery; omega) (by show rl.checkEvery ≤ maxInt64; omega)
      k st out hk
    rw [hQ, hCk]
    show ((0 : Int) + (k : Int) + 1) % rl.checkEvery = 0 ↔ rl.checkEvery ∣ (k : Int) + 1
    rw [Int.zero_add]
    exact Int.dvd_iff_emod_eq_zero.symm

/-- C9 with the threshold 10: the tenth call fails to reach the host, returns
without sleeping, and the next nine calls do not ask the host. -/
theorem failed_query_not_fatal_witness :
    (RateLimiter.Check { checkCounter := 9, checkEvery := 10 }
        { rateLimits := .error "timeout", now := 0 }
      = ({ checkCounter := 0, checkEvery := 10 }, .queryFailed "timeout")) ∧
    ((checkTrace { checkCounter := 0, checkEvery := 10 }
        (List.replicate 10 { rateLimits := .ok { Remaining := 0, Reset := 0 }, now := 0 })).map
          (fun r => r.2.queried)
      = [false, false, false, false, false, false, false, false, false, true]) :=
  ⟨(failed_query_not_fatal { checkCounter := 9, checkEvery := 10 }
      { rateLimits := .error "timeout", now := 0 } "timeout"
      (by decide) (by decide) (by decide) (by decide) rfl).1,
    by decide⟩

/-- C5, as stated, fails: with the threshold 10 of `main`, the first call of
`Check` returns at once, without asking the host and without sleeping, although
the host would report zero remaining calls and a reset time one hour ahead. -/
theorem budget_respect_counterexample :
    ((NewRateLimiter 10).Check
        { rateLimits := .ok { Remaining := 0, Reset := 3600 * Second }, now := 0 }).2
      = .skipped ∧
    ¬ (3600 * Second + 2 * Second ≤
        earliestReturn 0
          ((NewRateLimiter 10).Check
            { rateLimits := .ok { Remaining := 0, Reset := 3600 * Second }, now := 0 }).2) := by
  decide

/-- C5, amended.  On a call of `Check` that is due to ask the host (the
incremented counter reaches `checkEvery`), when the host reports zero remaining
calls and a reset time `Reset` that lies at most `maxInt64 - 2 s` nanoseconds
after the clock reading `now`, `Check` resets the counter and calls `time.Sleep`
with a duration `d` such that it does not return before `Reset + 2 s`; `d` is
`Reset - now + 2 s` unless `Reset - now` lies below the range of a duration.  A
call that is not due returns without asking the host and without sleeping. -/
theorem budget_respect_on_due_calls (rl : RateLimiter) (env : CheckEnv) (core : Rate)
    (hlo : 0 ≤ rl.checkCounter) (hhi : rl.checkCounter < maxInt64)
    (hdue : rl.checkEvery ≤ rl.checkCounter + 1)
    (henv : env.rateLimits = .ok core) (hzero : core.Remaining = 0)
    (hrange : core.Reset - env.now ≤ maxInt64 - 2 * Second) :
    (∃ d, rl.Check env = ({ checkCounter := 0, checkEvery := rl.checkEvery }, .slept d) ∧
      core.Reset + 2 * Second ≤ earliestReturn env.now (rl.Check env).2 ∧
      (minInt64 ≤ core.Reset - env.now → d = core.Reset - env.now + 2 * Second)) ∧
    (∀ (rl2 : RateLimiter) (env2 : CheckEnv), 0 ≤ rl2.checkCounter →
      rl2.checkCounter + 1 < rl2.checkEvery → rl2.checkEvery ≤ maxInt64 →
        (rl2.Check env2).2 = .skipped ∧ earliestReturn env2.now (rl2.Check env2).2 = env2.now) := by
  have hmin : minInt64 ≤ rl.checkCounter + 1 := by
    unfold minInt64
    omega
  have hC := Check_due rl env hmin hhi hdue
  rw [henv] at hC
  simp only [hzero, if_true] at hC
  constructor
  · refine ⟨_, hC, ?_, ?_⟩
    · rw [hC]
      show core.Reset + 2 * Second ≤
        env.now + max (wrapInt64 (timeUntil core.Reset env.now + 2 * Second)) 0
      unfold timeUntil wrapInt64
      unfold maxInt64 Second at hrange
      unfold minInt64 maxInt64 Second
      split_ifs <;> omega
    · intro hge
      unfold timeUntil wrapInt64
      unfold maxInt64 Second at hrange
      unfold minInt64 at hge
      unfold minInt64 maxInt64 Second
      split_ifs <;> omega
  · intro rl2 env2 h0 hlt hmax2
    have hmin2 : minInt64 ≤ rl2.checkCounter + 1 := by
      unfold minInt64
      omega
    rw [Check_not_due rl2 env2 hmin2 hlt hmax2]
    exact ⟨rfl, rfl⟩

/-- C5 amended, at the tenth call with the threshold 10: the host reports zero
remaining calls and a reset one hour ahead, and the call sleeps for one hour and
two seconds. -/
theorem budget_respect_on_due_calls_witness :
    ∃ d, RateLimiter.Check { checkCounter := 9, checkEvery := 10 }
          { rateLimits := .ok { Remaining := 0, Reset := 3600 * Second }, now := 0 }
        = ({ checkCounter := 0, checkEvery := 10 }, .slept d) ∧
      3600 * Second + 2 * Second ≤
        earliestReturn 0
          (RateLimiter.Check { checkCounter := 9, checkEvery := 10 }
            { rateLimits := .ok { Remaining := 0, Reset := 3600 * Second }, now := 0 }).2 ∧
      (minInt64 ≤ 3600 * Second - 0 → d = 3600 * Second - 0 + 2 * Second) :=
  (budget_respect_on_due_calls { checkCounter := 9, checkEvery := 10 }
    { rateLimits := .ok { Remaining := 0, Reset := 3600 * Second }, now := 0 }
    { Remaining := 0, Reset := 3600 * Second }
    (by decide) (by decide) (by decide) rfl rfl (by decide)).1

/-! ## The enumeration loop -/

theorem enqueueNew_requests (cs : List String) (st : EnumState) :
    (enqueueNew st cs).requests = st.requests := by
  induction cs generalizing st with
  | nil => rfl
  | cons c cs ih =>
    unfold enqueueNew
    split_ifs
    · exact ih st
    · rw [ih]

theorem enqueueNew_inv (S0 : List String) (cs : List String) (st : EnumState)
    (h : EnumInv S0 st) : EnumInv S0 (enqueueNew st cs) := by
  induction cs generalizing st with
  | nil => exact h
  | cons c cs ih =>
    unfold enqueueNew
    split_ifs with hc
    · exact ih st h
    · apply ih
      obtain ⟨hnd, hsent, hS0⟩ := h
      refine ⟨?_, ?_, ?_⟩
      · show (st.commitChan ++ [c]).Nodup
        rw [List.nodup_append]
        refine ⟨hnd, List.nodup_singleton c, ?_⟩
        intro x hx hx2
        rw [List.mem_singleton] at hx2
        subst hx2
        exact hc (hsent x hx).1
      · intro x hx
        have hx2 : x ∈ st.commitChan ++ [c] := hx
        rw [List.mem_append, List.mem_singleton] at hx2
        rcases hx2 with hx2 | hx2
        · exact ⟨List.mem_cons_of_mem _ (hsent x hx2).1, (hsent x hx2).2⟩
        · subst hx2
          exact ⟨List.mem_cons_self _ _, fun hin => hc (hS0 x hin)⟩
      · intro x hx
        exact List.mem_cons_of_mem _ (hS0 x hx)

theorem fetchPages_inv (S0 : List String) (host : ListCommits) (branchSha : String) (fuel : Nat)
    (page : Int) (st : EnumState) (h : EnumInv S0 st) :
    EnumInv S0 (fetchPages host branchSha fuel page st).state := by
  induction fuel generalizing page st with
  | zero => exact h
  | succ fuel ih =>
    have h1 : EnumInv S0 { st with requests := st.requests + 1 } := h
    unfold fetchPages
    cases host st.requests branchSha page with
    | error e => exact h1
    | ok resp =>
      simp only
      split_ifs
      · exact h1
      · exact enqueueNew_inv S0 _ _ h1
      · exact ih _ _ (enqueueNew_inv S0 _ _ h1)

theorem scanBranches_inv (S0 : List String) (host : ListCommits) (fuel : Nat)
    (branches : List String) (st : EnumState) (h : EnumInv S0 st) :
    EnumInv S0 (scanBranches host fuel branches st).state := by
  induction branches generalizing st with
  | nil => exact h
  | cons b bs ih =>
    have hb := fetchPages_inv S0 host b fuel 0 st h
    unfold scanBranches
    cases hres : fetchPages host b fuel 0 st with
    | finished st1 =>
      rw [hres] at hb
      exact ih st1 hb
    | fatal st1 =>
      rw [hres] at hb
      exact hb
    | running st1 =>
      rw [hres] at hb
      exact hb

theorem enumerate_inv (host : ListCommits) (fuel : Nat) (branches scanned : List String) :
    EnumInv scanned (enumerate host fuel branches scanned).state := by
  unfold enumerate
  apply scanBranches_inv
  exact ⟨List.nodup_nil, fun x hx => absurd hx (List.not_mem_nil x), fun x hx => hx⟩

/-- The page bound only cuts a listing short: a listing that ended within the
bound ends the same way under any larger bound. -/
theorem fetchPages_more_fuel (host : ListCommits) (branchSha : String) (fuel extra : Nat)
    (page : Int) (st : EnumState)
    (h : ∀ s, fetchPages host branchSha fuel page st ≠ .running s) :
    fetchPages host branchSha (fuel + extra) page st = fetchPages host branchSha fuel page st := by
  induction fuel generalizing page st with
  | zero => exact absurd rfl (h st)
  | succ fuel ih =>
    rw [show fuel + 1 + extra = (fuel + extra) + 1 by omega]
    unfold fetchPages at h ⊢
    cases hh : host st.requests branchSha page with
    | error e => rfl
    | ok resp =>
      rw [hh] at h
      simp only at h ⊢
      split_ifs at h ⊢ with h1 h2
      · rfl
      · rfl
      · exact ih _ _ h

theorem scanBranches_more_fuel (host : ListCommits) (fuel extra : Nat) (branches : List String)
    (st : EnumState) (h : ∀ s, scanBranches host fuel branches st ≠ .running s) :
    scanBranches host (fuel + extra) branches st = scanBranches host fuel branches st := by
  induction branches generalizing st with
  | nil => rfl
  | cons b bs ih =>
    unfold scanBranches at h ⊢
    cases hres : fetchPages host b fuel 0 st with
    | finished s1 =>
      rw [hres] at h
      rw [fetchPages_more_fuel host b fuel extra 0 st (by rw [hres]; intro s hs; cases hs)]
      rw [hres]
      exact ih s1 h
    | fatal s1 =>
      rw [fetchPages_more_fuel host b fuel extra 0 st (by rw [hres]; intro s hs; cases hs)]
      rw [hres]
    | running s1 =>
      rw [hres] at h
      exact absurd rfl (h s1)

/-- C1 (at most one enqueue per identifier per run).  For every host, every
list of branches, every page bound and every loaded set, the sequence of SHAs
sent on `commitChan` up to the point the enumeration has reached (its end, a
fatal error, or the page bound) holds no SHA twice. -/
theorem at_most_one_enqueue (host : ListCommits) (fuel : Nat) (branches scanned : List String) :
    (enumerate host fuel branches scanned).state.commitChan.Nodup :=
  (enumerate_inv host fuel branches scanned).1

/-- C1 on two branches that both list A, B and A again: the loop makes two
requests and sends A and B once each. -/
theorem at_most_one_enqueue_witness :
    enumerate listingTwice 1 ["main", "dev"] [] =
      .finished { scannedSHAs := ["B", "A"], commitChan := ["A", "B"], requests := 2 } ∧
    (enumerate listingTwice 1 ["main", "dev"] []).state.commitChan.Nodup :=
  ⟨by decide, at_most_one_enqueue listingTwice 1 ["main", "dev"] []⟩

theorem enqueueNew_of_known (cs : List String) (st : EnumState)
    (h : ∀ c ∈ cs, c ∈ st.scannedSHAs) : enqueueNew st cs = st := by
  induction cs with
  | nil => rfl
  | cons c cs ih =>
    unfold enqueueNew
    rw [if_pos (h c (List.mem_cons_self _ _))]
    exact ih (fun x hx => h x (List.mem_cons_of_mem _ hx))

theorem enqueueNew_mono (cs : List String) (st : EnumState) :
    ∀ x ∈ st.scannedSHAs, x ∈ (enqueueNew st cs).scannedSHAs := by
  induction cs generalizing st with
  | nil => exact fun x hx => hx
  | cons c cs ih =>
    intro x hx
    unfold enqueueNew
    split_ifs
    · exact ih st x hx
    · exact ih _ x (List.mem_cons_of_mem _ hx)

theorem enqueueNew_listed (cs : List String) (st : EnumState) :
    ∀ c ∈ cs, c ∈ (enqueueNew st cs).scannedSHAs := by
  induction cs generalizing st with
  | nil => exact fun c hc => absurd hc (List.not_mem_nil c)
  | cons c cs ih =>
    intro x hx
    unfold enqueueNew
    rcases List.mem_cons.1 hx with hx | hx
    · subst hx
      split_ifs with hc
      · exact enqueueNew_mono cs st x hc
      · exact enqueueNew_mono cs _ x (List.mem_cons_self _ _)
    · split_ifs
      · exact ih st x hx
      · exact ih _ x hx

theorem fetchPages_mono (host : ListCommits) (branchSha : String) (fuel : Nat) (page : Int)
    (st : EnumState) :
    ∀ x ∈ st.scannedSHAs, x ∈ (fetchPages host branchSha fuel page st).state.scannedSHAs := by
  induction fuel generalizing page st with
  | zero => exact fun x hx => hx
  | succ fuel ih =>
    intro x hx
    have h1 : x ∈ ({ st with requests := st.requests + 1 } : EnumState).scannedSHAs := hx
    unfold fetchPages
    cases host st.requests branchSha page with
    | error e => exact h1
    | ok resp =>
      simp only
      split_ifs
      · exact h1
      · exact enqueueNew_mono _ _ x h1
      · exact ih _ _ x (enqueueNew_mono _ _ x h1)

theorem scanBranches_mono (host : ListCommits) (fuel : Nat) (branches : List String)
    (st : EnumState) :
    ∀ x ∈ st.scannedSHAs, x ∈ (scanBranches host fuel branches st).state.scannedSHAs := by
  induction branches generalizing st with
  | nil => exact fun x hx => hx
  | cons b bs ih =>
    intro x hx
    have hb := fetchPages_mono host b fuel 0 st x hx
    unfold scanBranches
    cases hres : fetchPages host b fuel 0 st with
    | finished st1 =>
      rw [hres] at hb
      exact ih st1 x hb
    | fatal st1 =>
      rw [hres] at hb
      exact hb
    | running st1 =>
      rw [hres] at hb
      exact hb

/-- The listing of one branch, run again from a state whose map already holds
everything the first run left in its map: the same requests are made, with the
same end, and the map and the channel stay as they are. -/
theorem fetchPages_again (host : ListCommits) (branchSha : String) (fuel : Nat) (page : Int)
    (st1 st2 : EnumState) (hreq : st1.requests = st2.requests)
    (hsub : ∀ x ∈ (fetchPages host branchSha fuel page st1).state.scannedSHAs,
      x ∈ st2.scannedSHAs) :
    fetchPages host branchSha fuel page st2 =
      (fetchPages host branchSha fuel page st1).mapState
        (fun s => { st2 with requests := s.requests }) := by
  induction fuel generalizing page st1 st2 with
  | zero =>
    show EnumResult.running st2 = EnumResult.running { st2 with requests := st1.requests }
    rw [hreq]
  | succ fuel ih =>
    unfold fetchPages at hsub ⊢
    cases hh : host st1.requests branchSha page with
    | error e =>
      have hh2 : host st2.requests branchSha page = .error e := by rw [← hreq]; exact hh
      rw [hh2]
      show EnumResult.fatal _ = EnumResult.fatal _
      rw [hreq]
    | ok resp =>
      have hh2 : host st2.requests branchSha page = .ok resp := by rw [← hreq]; exact hh
      rw [hh] at hsub
      rw [hh2]
      simp only at hsub ⊢
      by_cases he : resp.commits.length = 0
      · rw [if_pos he, if_pos he]
        show EnumResult.finished _ = EnumResult.finished _
        rw [hreq]
      · rw [if_neg he] at hsub
        rw [if_neg he, if_neg he]
        by_cases hn : resp.NextPage = 0
        · rw [if_pos hn] at hsub
          rw [if_pos hn, if_pos hn]
          have hknown : enqueueNew { st2 with requests := st2.requests + 1 } resp.commits
              = { st2 with requests := st2.requests + 1 } :=
            enqueueNew_of_known _ _ (fun c hc => hsub c (enqueueNew_listed _ _ c hc))
          rw [hknown]
          simp only [EnumResult.mapState, enqueueNew_requests, hreq]
        · rw [if_neg hn] at hsub
          rw [if_neg hn, if_neg hn]
          have hknown : enqueueNew { st2 with requests := st2.requests + 1 } resp.commits
              = { st2 with requests := st2.requests + 1 } :=
            enqueueNew_of_known _ _
              (fun c hc => hsub c (fetchPages_mono _ _ _ _ _ c (enqueueNew_listed _ _ c hc)))
          rw [hknown]
          exact ih resp.NextPage
            (enqueueNew { st1 with requests := st1.requests + 1 } resp.commits)
            { st2 with requests := st2.requests + 1 }
            (by rw [enqueueNew_requests]; show st1.requests + 1 = st2.requests + 1; rw [hreq])
            hsub

theorem scanBranches_again (host : ListCommits) (fuel : Nat) (branches : List String)
    (st1 st2 : EnumState) (hreq : st1.requests = st2.requests)
    (hsub : ∀ x ∈ (scanBranches host fuel branches st1).state.scannedSHAs,
      x ∈ st2.scannedSHAs) :
    scanBranches host fuel branches st2 =
      (scanBranches host fuel branches st1).mapState
        (fun s => { st2 with requests := s.requests }) := by
  induction branches generalizing st1 st2 with
  | nil =>
    show EnumResult.finished st2 = EnumResult.finished { st2 with requests := st1.requests }
    rw [hreq]
  | cons b bs ih =>
    unfold scanBranches at hsub ⊢
    cases hres : fetchPages host b fuel 0 st1 with
    | finished s1 =>
      rw [hres] at hsub
      simp only at hsub ⊢
      have hb := fetchPages_again host b fuel 0 st1 st2 hreq
        (by
          rw [hres]
          intro x hx
          exact hsub x (scanBranches_mono host fuel bs s1 x hx))
      rw [hb, hres]
      show scanBranches host fuel bs { st2 with requests := s1.requests } =
        (scanBranches host fuel bs s1).mapState (fun s => { st2 with requests := s.requests })
      exact ih s1 { st2 with requests := s1.requests } rfl hsub
    | fatal s1 =>
      rw [hres] at hsub
      have hb := fetchPages_again host b fuel 0 st1 st2 hreq (by rw [hres]; exact hsub)
      rw [hb, hres]
      rfl
    | running s1 =>
      rw [hres] at hsub
      have hb := fetchPages_again host b fuel 0 st1 st2 hreq (by rw [hres]; exact hsub)
      rw [hb, hres]
      rfl

theorem mapState_state (f : EnumState → EnumState) (r : EnumResult) :
    (r.mapState f).state = f r.state := by
  cases r <;> rfl

/-! ## The worker -/

theorem send_blocked (st : WorkerState) (f : LeakFinding) (h : st.blocked = true) :
    send st f = st := by
  unfold send
  rw [if_pos h]

theorem sendFindings_blocked (fs : List LeakFinding) (st : WorkerState)
    (h : st.blocked = true) : sendFindings st fs = st := by
  unfold sendFindings
  induction fs with
  | nil => rfl
  | cons f fs ih => rw [List.foldl_cons, send_blocked st f h, ih]

/-- The sends of a list of findings from a worker that is not waiting: the
findings that fit enter the buffer, and the worker waits for ever exactly when
one does not fit. -/
theorem sendFindings_eq (fs : List LeakFinding) (st : WorkerState) (h : st.blocked = false) :
    sendFindings st fs =
      { st with
        leakChan := st.leakChan ++ fs.take (leakChanCap - st.leakChan.length)
        blocked := decide (leakChanCap - st.leakChan.length < fs.length) } := by
  induction fs generalizing st with
  | nil =>
    cases st
    simp only at h
    simp [sendFindings, h]
  | cons f fs ih =>
    have hstep : sendFindings st (f :: fs) = sendFindings (send st f) fs := rfl
    rw [hstep]
    by_cases hroom : st.leakChan.length < leakChanCap
    · have hs : send st f = { st with leakChan := st.leakChan ++ [f] } := by
        unfold send
        rw [h]
        simp [hroom]
      rw [hs, ih { st with leakChan := st.leakChan ++ [f] } h]
      obtain ⟨k, hk⟩ : ∃ k, leakChanCap - st.leakChan.length = k + 1 :=
        ⟨leakChanCap - st.leakChan.length - 1, by omega⟩
      have hk2 : leakChanCap - (st.leakChan ++ [f]).length = k := by
        rw [List.length_append, List.length_singleton]
        omega
      simp only [hk, hk2, List.take_succ_cons, List.append_assoc, List.singleton_append,
        List.length_cons, Nat.add_lt_add_iff_right]
    · have hs : send st f = { st with blocked := true } := by
        unfold send
        rw [h]
        simp [hroom]
      rw [hs, sendFindings_blocked fs _ rfl]
      have hz : leakChanCap - st.leakChan.length = 0 := by omega
      simp [hz]

theorem sendFindings_append (fs gs : List LeakFinding) (st : WorkerState) :
    sendFindings st (fs ++ gs) = sendFindings (sendFindings st fs) gs := by
  unfold sendFindings
  rw [List.foldl_append]

theorem scanFiles_eq (rules : List RegexRule) (sha committer : String) (date : Int)
    (files : List CommitFile) (st : WorkerState) :
    scanFiles rules sha committer date files st =
      sendFindings st (files.flatMap (fun file =>
        lookForLeaks rules file.Patch sha file.Filename committer date)) := by
  unfold scanFiles
  induction files generalizing st with
  | nil => rfl
  | cons f fs ih =>
    rw [List.foldl_cons, ih, List.flatMap_cons, sendFindings_append]

theorem workerStep_blocked (rules : List RegexRule) (env : WorkerEnv) (st : WorkerState)
    (sha : String) (h : st.blocked = true) : workerStep rules env st sha = st := by
  unfold workerStep
  rw [if_pos h]

/-- A failed fetch: the step only counts the call of `rl.Check()`. -/
theorem workerStep_error (rules : List RegexRule) (env : WorkerEnv) (st : WorkerState)
    (sha err : String) (hb : st.blocked = false) (h : env.GetCommit sha = .error err) :
    workerStep rules env st sha = { st with checks := st.checks + 1 } := by
  unfold workerStep
  rw [hb, h]
  rfl

/-- A successful fetch: the findings are sent as far as the buffer has room, and
the identifier is recorded exactly when all of them went through. -/
theorem workerStep_ok (rules : List RegexRule) (env : WorkerEnv) (st : WorkerState)
    (sha : String) (d : RepositoryCommit) (hb : st.blocked = false)
    (h : env.GetCommit sha = .ok d) :
    workerStep rules env st sha =
      if leakChanCap - st.leakChan.length < (commitFindings rules sha d).length then
        { checks := st.checks + 1
          leakChan := st.leakChan ++
            (commitFindings rules sha d).take (leakChanCap - st.leakChan.length)
          appendCalls := st.appendCalls
          store := st.store
          blocked := true }
      else
        { checks := st.checks + 1
          leakChan := st.leakChan ++ commitFindings rules sha d
          appendCalls := st.appendCalls ++ [sha]
          store := (appendScannedSHA st.store (env.appendError sha) sha).1
          blocked := false } := by
  unfold workerStep
  rw [hb, h]
  simp only [Bool.false_eq_true, if_false, scanFiles_eq]
  rw [sendFindings_eq _ _ rfl]
  by_cases hfull :
      leakChanCap - st.leakChan.length < (commitFindings rules sha d).length
  · have hfull2 := hfull
    unfold commitFindings at hfull2
    rw [if_pos hfull]
    simp only [decide_eq_true hfull2, if_true]
    rfl
  · have hfull2 := hfull
    unfold commitFindings at hfull2
    rw [if_neg hfull]
    simp only [decide_eq_false hfull2, Bool.false_eq_true, if_false]
    have htake : (commitFindings rules sha d).take (leakChanCap - st.leakChan.length)
        = commitFindings rules sha d := List.take_of_length_le (by omega)
    unfold commitFindings at htake
    rw [htake]
    rfl

theorem todoScan_line (prev : Option UInt8) (hprev : prev = none ∨ prev = some 10)
    (rest : Bytes) :
    todoScan prev none (utf8 "TODO\n" ++ rest) = utf8 "TODO" :: todoScan (some 10) none rest := by
  rcases hprev with h | h <;> subst h <;> rfl

theorem todoScan_todoLines (n : Nat) (prev : Option UInt8)
    (hprev : prev = none ∨ prev = some 10) :
    (todoScan prev none (todoLines n)).length = n := by
  induction n generalizing prev with
  | zero => rcases hprev with h | h <;> subst h <;> rfl
  | succ n ih =>
    have hshape : todoLines (n + 1) = utf8 "TODO\n" ++ todoLines n := by
      simp [todoLines, List.replicate_succ]
    rw [hshape, todoScan_line prev hprev, List.length_cons, ih (some 10) (Or.inr rfl)]

theorem floodCommit_findings (sha : String) :
    (commitFindings regexRules sha floodCommit).length = 1001 := by
  unfold commitFindings floodCommit
  simp only [List.flatMap_cons, List.flatMap_nil, List.append_nil]
  rw [lookForLeaks_eq]
  simp only [regexRules, todoRule, List.flatMap_cons, List.flatMap_nil, List.append_nil,
    List.length_map]
  exact todoScan_todoLines 1001 none (Or.inl rfl)

/-- C8, the run on which the code departs from the claim.  A worker with an
empty `leakChan` takes a commit whose fetch succeeds and whose patch has 1001
lines that match the shipped rule: the first 1000 findings fill the buffer, the
worker then waits for ever in `leakChan <- finding`, `appendScannedSHA` is not
called for the commit, and nothing taken afterwards is recorded either.  On the
scenario A, C, D, where the channel has room, A and C are recorded once each and
D, whose fetch fails, is not. -/
theorem worker_blocks_on_full_leakChan :
    floodEnv.fetched "F" = true ∧
    (workerStep regexRules floodEnv WorkerState.init "F").blocked = true ∧
    (workerStep regexRules floodEnv WorkerState.init "F").leakChan.length = 1000 ∧
    (workerStep regexRules floodEnv WorkerState.init "F").appendCalls = [] ∧
    (workerStep regexRules floodEnv WorkerState.init "F").store = [] ∧
    (worker regexRules floodEnv ["F", "G"] WorkerState.init).appendCalls = [] ∧
    (worker regexRules scenarioEnv ["A", "C", "D"] WorkerState.init =
      { checks := 3
        leakChan := [{ CommitSHA := "A", FileName := "main.go",
                       Committer := "dev <dev@example.com>", Date := 0,
                       RuleName := "TODO Comment", MatchString := utf8 "TODO fix this" }]
        appendCalls := ["A", "C"]
        store := "A\nC\n".data
        blocked := false }) := by
  have hlen := floodCommit_findings "F"
  have hstep := workerStep_ok regexRules floodEnv WorkerState.init "F" floodCommit rfl rfl
  have hfull : leakChanCap - WorkerState.init.leakChan.length <
      (commitFindings regexRules "F" floodCommit).length := by
    rw [hlen]
    decide
  rw [if_pos hfull] at hstep
  refine ⟨rfl, by rw [hstep], ?_, by rw [hstep]; rfl, by rw [hstep]; rfl, ?_, by decide⟩
  · rw [hstep]
    show (WorkerState.init.leakChan ++
      List.take (leakChanCap - WorkerState.init.leakChan.length)
        (commitFindings regexRules "F" floodCommit)).length = 1000
    rw [List.length_append, List.length_take, hlen]
    decide
  · unfold worker
    rw [List.foldl_cons, List.foldl_cons, List.foldl_nil, hstep,
      workerStep_blocked regexRules floodEnv _ "G" rfl]
    rfl

/-! ## loadScannedSHAs -/

theorem isSpace_newline : isSpace '\n' = true := by decide

theorem isSpace_return : isSpace '\r' = true := by decide

theorem SkipSpace_of_not_space (c : Char) (rest : List Char) (hc : isSpace c = false) :
    SkipSpace (c :: rest) = .ok (c :: rest) := by
  have h1 : c ≠ '\r' := fun h => by rw [h, isSpace_return] at hc; cases hc
  have h2 : c ≠ '\n' := fun h => by rw [h, isSpace_newline] at hc; cases hc
  unfold SkipSpace
  rw [if_neg (fun h => h1 h.1), if_neg h2, if_pos (by simp [hc])]

theorem SkipSpace_newline (rest : List Char) :
    SkipSpace ('\n' :: rest) = .error .unexpectedNewline := by
  unfold SkipSpace
  rw [if_neg (fun h => absurd h.1 (by decide)), if_pos rfl]

/-- What `SkipSpace` leaves is empty or starts with a rune that is not a space,
and is no longer than what it was given. -/
theorem SkipSpace_ok (input out : List Char) (h : SkipSpace input = .ok out) :
    out.length ≤ input.length ∧
    (out = [] ∨ ∃ c rest, out = c :: rest ∧ isSpace c = false) := by
  induction input with
  | nil =>
    unfold SkipSpace at h
    cases h
    exact ⟨le_refl _, Or.inl rfl⟩
  | cons r rest ih =>
    unfold SkipSpace at h
    split_ifs at h with h1 h2 h3
    · obtain ⟨hl, ho⟩ := ih h
      exact ⟨by rw [List.length_cons]; omega, ho⟩
    · cases h
      refine ⟨le_refl _, Or.inr ⟨r, rest, rfl, ?_⟩⟩
      simpa using h3
    · obtain ⟨hl, ho⟩ := ih h
      exact ⟨by rw [List.length_cons]; omega, ho⟩

theorem matchNewline_ok (input out : List Char) (h : matchNewline input = .ok out) :
    out.length ≤ input.length := by
  induction input with
  | nil =>
    unfold matchNewline at h
    cases h
    exact le_refl _
  | cons r rest ih =>
    unfold matchNewline at h
    split_ifs at h with h1 h2
    · cases h
      rw [List.length_cons]
      omega
    · have := ih h
      rw [List.length_cons]
      omega

theorem span_word (w tail : List Char) (hw : ∀ c ∈ w, isSpace c = false) :
    (w ++ '\n' :: tail).span (fun r => !isSpace r) = (w, '\n' :: tail) := by
  rw [List.span_eq_take_drop]
  induction w with
  | nil => simp [List.takeWhile, List.dropWhile, isSpace_newline]
  | cons c w ih =>
    have hc : isSpace c = false := hw c (List.mem_cons_self _ _)
    have ih2 := ih (fun x hx => hw x (List.mem_cons_of_mem _ hx))
    simp only [List.cons_append, List.takeWhile, List.dropWhile, hc, Bool.not_false]
    rw [Prod.mk.injEq] at ih2 ⊢
    exact ⟨congrArg (List.cons c) ih2.1, ih2.2⟩

/-- One call of `Fscanf` on a well-formed line reads the identifier and consumes
the line. -/
theorem Fscanf_line (w : String) (tail : List Char) (hw : WellFormedSHA w) :
    Fscanf (w.data ++ '\n' :: tail) = .ok (w, tail) := by
  obtain ⟨hne, hns⟩ := hw
  obtain ⟨c, cs, hcs⟩ := List.exists_cons_of_ne_nil hne
  have hc : isSpace c = false := hns c (by rw [hcs]; exact List.mem_cons_self _ _)
  have hskip : SkipSpace (w.data ++ '\n' :: tail) = .ok (w.data ++ '\n' :: tail) := by
    rw [hcs, List.cons_append]
    exact SkipSpace_of_not_space c _ hc
  have hne2 : w.data ++ '\n' :: tail ≠ [] := by
    rw [hcs]
    simp
  unfold Fscanf
  simp only [hskip, if_neg hne2, span_word w.data tail hns]
  unfold matchNewline
  rw [if_pos rfl]

/-- A call of `Fscanf` on input that starts with an empty line fails. -/
theorem Fscanf_empty_line (tail : List Char) :
    Fscanf ('\n' :: tail) = .error .unexpectedNewline := by
  unfold Fscanf
  rw [SkipSpace_newline]

/-- A successful call of `Fscanf` consumes input. -/
theorem Fscanf_consumes (input rest : List Char) (sha : String)
    (h : Fscanf input = .ok (sha, rest)) : rest.length < input.length := by
  unfold Fscanf at h
  cases h1 : SkipSpace input with
  | error e => rw [h1] at h; cases h
  | ok input1 =>
    rw [h1] at h
    simp only at h
    cases h2 : SkipSpace input1 with
    | error e => rw [h2] at h; cases h
    | ok input2 =>
      rw [h2] at h
      simp only at h
      by_cases hemp : input2 = []
      · rw [if_pos hemp] at h
        cases h
      · rw [if_neg hemp] at h
        cases h3 : SkipSpace input2 with
        | error e => rw [h3] at h; cases h
        | ok input3 =>
          rw [h3] at h
          simp only at h
          cases h4 : matchNewline (input3.span (fun r => !isSpace r)).2 with
          | error e => rw [h4] at h; cases h
          | ok rest2 =>
            rw [h4] at h
            simp only [Except.ok.injEq, Prod.mk.injEq] at h
            obtain ⟨_, hrest⟩ := h
            subst hrest
            have l1 := (SkipSpace_ok _ _ h1).1
            have l2 := SkipSpace_ok _ _ h2
            have l4 := matchNewline_ok _ _ h4
            rcases l2.2 with hnil | ⟨c, cs, hcs, hc⟩
            · exact absurd hnil hemp
            · subst hcs
              rw [SkipSpace_of_not_space c cs hc] at h3
              cases h3
              rw [List.span_eq_take_drop] at l4
              simp only [List.dropWhile, hc, Bool.not_false] at l4
              have l5 := (List.dropWhile_suffix (fun r => !isSpace r) (l := cs)).length_le
              have l6 := l2.1
              rw [List.length_cons] at l6
              omega

/-- The loop of `loadScannedSHAs` ends within its iteration bound. -/
theorem loadLoop_returns (fuel : Nat) (file : List Char) (scanned : List String)
    (h : file.length < fuel) : ∃ r, loadLoop fuel file scanned = some r := by
  induction fuel generalizing file scanned with
  | zero => omega
  | succ fuel ih =>
    unfold loadLoop
    cases hf : Fscanf file with
    | error e => exact ⟨scanned, rfl⟩
    | ok p =>
      obtain ⟨sha, rest⟩ := p
      have := Fscanf_consumes file rest sha hf
      exact ih rest _ (by omega)

/-- The function `loadScannedSHAs` returns on every store. -/
theorem loadScannedSHAs_returns (file : OpenResult) : ∃ r, loadScannedSHAs file = some r := by
  cases file with
  | notExist => exact ⟨_, rfl⟩
  | failed err => exact ⟨_, rfl⟩
  | opened content =>
    obtain ⟨r, hr⟩ := loadLoop_returns (content.length + 1) content [] (by omega)
    exact ⟨.ok r, by unfold loadScannedSHAs; simp only [hr]; rfl⟩

theorem loadLoop_lines (ws : List String) (rest : List Char) (hws : ∀ w ∈ ws, WellFormedSHA w)
    (e : ScanError) (hrest : Fscanf rest = .error e) (fuel : Nat) (scanned : List String)
    (hfuel : (storeLines ws ++ rest).length < fuel) :
    loadLoop fuel (storeLines ws ++ rest) scanned
      = some (ws.foldl (fun s w => s.insert w) scanned) := by
  induction ws generalizing fuel scanned with
  | nil =>
    cases fuel with
    | zero => omega
    | succ fuel =>
      unfold loadLoop
      show (match Fscanf ([] ++ rest) with
        | .error _ => some scanned
        | .ok (sha, rest) => loadLoop fuel rest (scanned.insert sha)) = _
      rw [List.nil_append, hrest]
      rfl
  | cons w ws ih =>
    cases fuel with
    | zero => omega
    | succ fuel =>
      have hshape : storeLines (w :: ws) ++ rest = w.data ++ '\n' :: (storeLines ws ++ rest) := by
        simp [storeLines]
      rw [hshape] at hfuel ⊢
      unfold loadLoop
      rw [Fscanf_line w _ (hws w (List.mem_cons_self _ _))]
      simp only [List.foldl_cons]
      apply ih (fun x hx => hws x (List.mem_cons_of_mem _ hx))
      rw [List.length_append, List.length_cons] at hfuel
      omega

theorem mem_foldl_insert (ws : List String) (scanned : List String) (x : String) :
    x ∈ ws.foldl (fun s w => s.insert w) scanned ↔ x ∈ scanned ∨ x ∈ ws := by
  induction ws generalizing scanned with
  | nil => simp
  | cons w ws ih =>
    rw [List.foldl_cons, ih, List.mem_insert_iff, List.mem_cons]
    constructor
    · rintro ((h | h) | h)
      · exact Or.inr (Or.inl h)
      · exact Or.inl h
      · exact Or.inr (Or.inr h)
    · rintro (h | h | h)
      · exact Or.inl (Or.inr h)
      · exact Or.inl (Or.inl h)
      · exact Or.inr h

theorem head_ne_newline (ps : List Char) (c0 : Char) (rest : List Char)
    (hps : ∀ c ∈ ps, Blank c) (hc0 : isSpace c0 = false) :
    (ps ++ c0 :: rest).head? ≠ some '\n' := by
  cases ps with
  | nil =>
    intro h
    simp only [List.nil_append, List.head?_cons, Option.some.injEq] at h
    rw [h, isSpace_newline] at hc0
    cases hc0
  | cons p ps =>
    intro h
    simp only [List.cons_append, List.head?_cons, Option.some.injEq] at h
    exact (hps p (List.mem_cons_self _ _)).2 h

/-- The spaces before an identifier are skipped. -/
theorem SkipSpace_blanks (pre : List Char) (c0 : Char) (rest : List Char)
    (hpre : ∀ c ∈ pre, Blank c) (hc0 : isSpace c0 = false) :
    SkipSpace (pre ++ c0 :: rest) = .ok (c0 :: rest) := by
  induction pre with
  | nil => exact SkipSpace_of_not_space c0 rest hc0
  | cons p ps ih =>
    have hp := hpre p (List.mem_cons_self _ _)
    have hps : ∀ c ∈ ps, Blank c := fun c hc => hpre c (List.mem_cons_of_mem _ hc)
    rw [List.cons_append]
    unfold SkipSpace
    rw [if_neg (fun h => head_ne_newline ps c0 rest hps hc0 h.2), if_neg hp.2,
      if_neg (by simp [hp.1])]
    exact ih hps

theorem span_word_gen (w r : List Char) (hw : ∀ c ∈ w, isSpace c = false)
    (hr : r = [] ∨ ∃ c r2, r = c :: r2 ∧ isSpace c = true) :
    (w ++ r).span (fun c => !isSpace c) = (w, r) := by
  rw [List.span_eq_take_drop]
  induction w with
  | nil =>
    rcases hr with hr | ⟨c, r2, hr, hc⟩
    · subst hr
      rfl
    · subst hr
      simp [List.takeWhile, List.dropWhile, hc]
  | cons c w ih =>
    have hc : isSpace c = false := hw c (List.mem_cons_self _ _)
    have ih2 := ih (fun x hx => hw x (List.mem_cons_of_mem _ hx))
    simp only [List.cons_append, List.takeWhile, List.dropWhile, hc, Bool.not_false]
    rw [Prod.mk.injEq] at ih2 ⊢
    exact ⟨congrArg (List.cons c) ih2.1, ih2.2⟩

theorem matchNewline_blanks (post tail : List Char) (hpost : ∀ c ∈ post, Blank c) :
    matchNewline (post ++ '\n' :: tail) = .ok tail ∧ matchNewline post = .ok [] := by
  induction post with
  | nil =>
    constructor
    · show matchNewline ('\n' :: tail) = .ok tail
      unfold matchNewline
      rw [if_pos rfl]
    · rfl
  | cons p ps ih =>
    have hp := hpost p (List.mem_cons_self _ _)
    have ih2 := ih (fun c hc => hpost c (List.mem_cons_of_mem _ hc))
    constructor
    · rw [List.cons_append]
      unfold matchNewline
      rw [if_neg hp.2, if_pos hp.1]
      exact ih2.1
    · unfold matchNewline
      rw [if_neg hp.2, if_pos hp.1]
      exact ih2.2

theorem blanks_head (post r : List Char) (hpost : ∀ c ∈ post, Blank c)
    (hr : r = [] ∨ ∃ c r2, r = c :: r2 ∧ isSpace c = true) :
    post ++ r = [] ∨ ∃ c r2, post ++ r = c :: r2 ∧ isSpace c = true := by
  cases post with
  | nil => exact hr
  | cons p ps => exact Or.inr ⟨p, ps ++ r, rfl, (hpost p (List.mem_cons_self _ _)).1⟩

/-- One call of `Fscanf` on a valid line reads its identifier and consumes the
line with its newline; on a valid last line without newline it reads the
identifier and reaches the end of the input. -/
theorem Fscanf_storeLine (l : StoreLine) (tail : List Char) (hl : l.Valid) :
    Fscanf (l.text ++ '\n' :: tail) = .ok (l.sha, tail) ∧ Fscanf l.text = .ok (l.sha, []) := by
  obtain ⟨hpre, ⟨hne, hns⟩, hpost⟩ := hl
  obtain ⟨c, cs, hcs⟩ := List.exists_cons_of_ne_nil hne
  have hc : isSpace c = false := hns c (by rw [hcs]; exact List.mem_cons_self _ _)
  have key : ∀ r : List Char, (r = [] ∨ ∃ c r2, r = c :: r2 ∧ isSpace c = true) →
      ∀ out, matchNewline r = .ok out →
        Fscanf (l.pre ++ (l.sha.data ++ r)) = .ok (l.sha, out) := by
    intro r hr out hout
    have h1 : SkipSpace (l.pre ++ (l.sha.data ++ r)) = .ok (l.sha.data ++ r) := by
      rw [hcs, List.cons_append]
      exact SkipSpace_blanks l.pre c _ hpre hc
    have h2 : SkipSpace (l.sha.data ++ r) = .ok (l.sha.data ++ r) := by
      rw [hcs, List.cons_append]
      exact SkipSpace_of_not_space c _ hc
    have hne2 : l.sha.data ++ r ≠ [] := by
      rw [hcs]
      simp
    unfold Fscanf
    simp only [h1, h2, if_neg hne2, span_word_gen l.sha.data r hns hr, hout]
  constructor
  · have hr := blanks_head l.post ('\n' :: tail) hpost
      (Or.inr ⟨'\n', tail, rfl, isSpace_newline⟩)
    have := key (l.post ++ '\n' :: tail) hr tail (matchNewline_blanks l.post tail hpost).1
    unfold StoreLine.text
    simpa [List.append_assoc] using this
  · have hr := blanks_head l.post [] hpost (Or.inl rfl)
    have := key (l.post ++ []) hr [] (by
      rw [List.append_nil]
      exact (matchNewline_blanks l.post [] hpost).2)
    unfold StoreLine.text
    simpa using this

/-- The loop on a content that starts with valid lines: it reads their
identifiers and goes on with what follows them. -/
theorem loadLoop_linesText (ls : List StoreLine) (tail : List Char)
    (hls : ∀ l ∈ ls, l.Valid) (after : List String → List String)
    (htail : ∀ fuel scanned, tail.length < fuel → loadLoop fuel tail scanned = some (after scanned))
    (fuel : Nat) (scanned : List String) (hfuel : (linesText ls ++ tail).length < fuel) :
    loadLoop fuel (linesText ls ++ tail) scanned
      = some (after (ls.foldl (fun s l => s.insert l.sha) scanned)) := by
  induction ls generalizing fuel scanned with
  | nil =>
    exact htail fuel scanned hfuel
  | cons l ls ih =>
    cases fuel with
    | zero => omega
    | succ fuel =>
      have hshape : linesText (l :: ls) ++ tail = l.text ++ '\n' :: (linesText ls ++ tail) := by
        simp [linesText]
      rw [hshape] at hfuel ⊢
      unfold loadLoop
      rw [(Fscanf_storeLine l _ (hls l (List.mem_cons_self _ _))).1]
      simp only [List.foldl_cons]
      apply ih (fun x hx => hls x (List.mem_cons_of_mem _ hx))
      rw [List.length_append, List.length_cons] at hfuel
      omega

theorem loadLoop_failing (tail : List Char) (e : ScanError) (h : Fscanf tail = .error e)
    (fuel : Nat) (scanned : List String) (hfuel : tail.length < fuel) :
    loadLoop fuel tail scanned = some scanned := by
  cases fuel with
  | zero => omega
  | succ fuel =>
    unfold loadLoop
    rw [h]

theorem loadLoop_lastLine (last : StoreLine) (hl : last.Valid)
    (fuel : Nat) (scanned : List String) (hfuel : last.text.length < fuel) :
    loadLoop fuel last.text scanned = some (scanned.insert last.sha) := by
  have hpos : 0 < last.text.length := by
    obtain ⟨_, ⟨hne, _⟩, _⟩ := hl
    obtain ⟨c, cs, hcs⟩ := List.exists_cons_of_ne_nil hne
    unfold StoreLine.text
    rw [hcs]
    simp
  obtain ⟨f, hf⟩ : ∃ f, fuel = f + 2 := ⟨fuel - 2, by omega⟩
  subst hf
  unfold loadLoop
  rw [(Fscanf_storeLine last [] hl).2]
  simp only
  unfold loadLoop
  rfl

theorem SkipSpace_decomp (input out : List Char) (h : SkipSpace input = .ok out) :
    ∃ pre, input = pre ++ out ∧ ∀ c ∈ pre, Blank c := by
  induction input with
  | nil =>
    unfold SkipSpace at h
    cases h
    exact ⟨[], rfl, fun c hc => absurd hc (List.not_mem_nil c)⟩
  | cons r rest ih =>
    unfold SkipSpace at h
    split_ifs at h with h1 h2 h3
    · obtain ⟨pre, hpre, hb⟩ := ih h
      refine ⟨r :: pre, by rw [hpre]; rfl, ?_⟩
      intro c hc
      rcases List.mem_cons.1 hc with hc | hc
      · rw [hc, h1.1]
        exact ⟨isSpace_return, by decide⟩
      · exact hb c hc
    · cases h
      exact ⟨[], rfl, fun c hc => absurd hc (List.not_mem_nil c)⟩
    · obtain ⟨pre, hpre, hb⟩ := ih h
      refine ⟨r :: pre, by rw [hpre]; rfl, ?_⟩
      intro c hc
      rcases List.mem_cons.1 hc with hc | hc
      · rw [hc]
        exact ⟨by simpa using h3, h2⟩
      · exact hb c hc

theorem matchNewline_decomp (input out : List Char) (h : matchNewline input = .ok out) :
    ∃ post, (∀ c ∈ post, Blank c) ∧
      (input = post ++ '\n' :: out ∨ (input = post ∧ out = [])) := by
  induction input with
  | nil =>
    unfold matchNewline at h
    cases h
    exact ⟨[], fun c hc => absurd hc (List.not_mem_nil c), Or.inr ⟨rfl, rfl⟩⟩
  | cons r rest ih =>
    unfold matchNewline at h
    split_ifs at h with h1 h2
    · cases h
      exact ⟨[], fun c hc => absurd hc (List.not_mem_nil c), Or.inl (by rw [h1]; rfl)⟩
    · obtain ⟨post, hb, hshape⟩ := ih h
      refine ⟨r :: post, ?_, ?_⟩
      · intro c hc
        rcases List.mem_cons.1 hc with hc | hc
        · rw [hc]
          exact ⟨h2, h1⟩
        · exact hb c hc
      · rcases hshape with hs | ⟨hs, ho⟩
        · exact Or.inl (by rw [hs]; rfl)
        · exact Or.inr ⟨by rw [hs], ho⟩

/-- A successful call of `Fscanf` has read one valid line: with its newline, or
up to the end of the input. -/
theorem Fscanf_ok_decomp (input rest : List Char) (sha : String)
    (h : Fscanf input = .ok (sha, rest)) :
    ∃ l : StoreLine, l.Valid ∧ l.sha = sha ∧
      (input = l.text ++ '\n' :: rest ∨ (input = l.text ∧ rest = [])) := by
  unfold Fscanf at h
  cases h1 : SkipSpace input with
  | error e => rw [h1] at h; cases h
  | ok input1 =>
    rw [h1] at h
    simp only at h
    cases h2 : SkipSpace input1 with
    | error e => rw [h2] at h; cases h
    | ok input2 =>
      rw [h2] at h
      simp only at h
      by_cases hemp : input2 = []
      · rw [if_pos hemp] at h
        cases h
      · rw [if_neg hemp] at h
        cases h3 : SkipSpace input2 with
        | error e => rw [h3] at h; cases h
        | ok input3 =>
          rw [h3] at h
          simp only at h
          cases h4 : matchNewline (input3.span (fun r => !isSpace r)).2 with
          | error e => rw [h4] at h; cases h
          | ok rest2 =>
            rw [h4] at h
            simp only [Except.ok.injEq, Prod.mk.injEq] at h
            obtain ⟨hsha, hrest⟩ := h
            subst hrest
            obtain ⟨pre1, hp1, hb1⟩ := SkipSpace_decomp _ _ h1
            obtain ⟨pre2, hp2, hb2⟩ := SkipSpace_decomp _ _ h2
            rcases (SkipSpace_ok _ _ h2).2 with hnil | ⟨c, cs, hcs, hc⟩
            · exact absurd hnil hemp
            · subst hcs
              rw [SkipSpace_of_not_space c cs hc] at h3
              cases h3
              rw [List.span_eq_take_drop] at h4 hsha
              simp only at h4 hsha
              obtain ⟨post, hbpost, hshape⟩ := matchNewline_decomp _ _ h4
              have hword : (c :: cs).takeWhile (fun r => !isSpace r) ≠ [] := by
                simp [List.takeWhile, hc]
              have hsplit : c :: cs =
                  (c :: cs).takeWhile (fun r => !isSpace r) ++
                    (c :: cs).dropWhile (fun r => !isSpace r) :=
                (List.takeWhile_append_dropWhile _ _).symm
              refine ⟨{ pre := pre1 ++ pre2, sha := sha, post := post }, ⟨?_, ⟨?_, ?_⟩, hbpost⟩,
                rfl, ?_⟩
              · intro x hx
                rcases List.mem_append.1 hx with hx | hx
                · exact hb1 x hx
                · exact hb2 x hx
              · rw [← hsha]
                exact hword
              · intro x hx
                rw [← hsha] at hx
                have := List.mem_takeWhile_imp hx
                simpa using this
              · have hdata : sha.data = (c :: cs).takeWhile (fun r => !isSpace r) := by
                  rw [← hsha]
                show input = (pre1 ++ pre2) ++ (sha.data ++ post) ++ '\n' :: rest2 ∨
                  (input = (pre1 ++ pre2) ++ (sha.data ++ post) ∧ rest2 = [])
                rw [hdata, hp1, hp2]
                rcases hshape with hs | ⟨hs, ho⟩
                · left
                  conv_lhs => rw [hsplit, hs]
                  simp [List.append_assoc]
                · right
                  refine ⟨?_, ho⟩
                  conv_lhs => rw [hsplit, hs]
                  simp [List.append_assoc]

/-- Every content is a run of valid lines followed either by a rest on which the
next scan fails or by a valid last line without newline. -/
theorem content_decomp (n : Nat) (content : List Char) (hn : content.length < n) :
    ∃ ls : List StoreLine, (∀ l ∈ ls, l.Valid) ∧
      ((∃ tail e, Fscanf tail = .error e ∧ content = linesText ls ++ tail) ∨
       (∃ last : StoreLine, last.Valid ∧ content = linesText ls ++ last.text)) := by
  induction n generalizing content with
  | zero => omega
  | succ n ih =>
    cases hf : Fscanf content with
    | error e =>
      exact ⟨[], fun l hl => absurd hl (List.not_mem_nil l), Or.inl ⟨content, e, hf, rfl⟩⟩
    | ok p =>
      obtain ⟨sha, rest⟩ := p
      obtain ⟨l, hl, _, hshape⟩ := Fscanf_ok_decomp content rest sha hf
      rcases hshape with hs | ⟨hs, _⟩
      · have hlen := Fscanf_consumes content rest sha hf
        obtain ⟨ls, hls, hrest⟩ := ih rest (by omega)
        refine ⟨l :: ls, ?_, ?_⟩
        · intro x hx
          rcases List.mem_cons.1 hx with hx | hx
          · rw [hx]
            exact hl
          · exact hls x hx
        · have hcons : ∀ t, linesText (l :: ls) ++ t = l.text ++ '\n' :: (linesText ls ++ t) := by
            intro t
            simp [linesText]
          rcases hrest with ⟨tail, e, hfail, hc⟩ | ⟨last, hlast, hc⟩
          · exact Or.inl ⟨tail, e, hfail, by rw [hcons, ← hc, hs]⟩
          · exact Or.inr ⟨last, hlast, by rw [hcons, ← hc, hs]⟩
      · exact ⟨[], fun l hl => absurd hl (List.not_mem_nil l), Or.inr ⟨l, hl, by rw [hs]; rfl⟩⟩

theorem mem_shaSet (ls : List StoreLine) (scanned : List String) (x : String) :
    x ∈ ls.foldl (fun s l => s.insert l.sha) scanned ↔ x ∈ scanned ∨ ∃ l ∈ ls, l.sha = x := by
  induction ls generalizing scanned with
  | nil => simp
  | cons l ls ih =>
    rw [List.foldl_cons, ih, List.mem_insert_iff]
    constructor
    · rintro ((h | h) | ⟨l2, hl2, hx⟩)
      · exact Or.inr ⟨l, List.mem_cons_self _ _, h.symm⟩
      · exact Or.inl h
      · exact Or.inr ⟨l2, List.mem_cons_of_mem _ hl2, hx⟩
    · rintro (h | ⟨l2, hl2, hx⟩)
      · exact Or.inl (Or.inr h)
      · rcases List.mem_cons.1 hl2 with hl2 | hl2
        · subst hl2
          exact Or.inl (Or.inl hx.symm)
        · exact Or.inr ⟨l2, hl2, hx⟩

theorem loadScannedSHAs_opened (content : List Char) :
    ∃ r, loadScannedSHAs (.opened content) = some (.ok r) := by
  obtain ⟨r, hr⟩ := loadLoop_returns (content.length + 1) content [] (by omega)
  exact ⟨r, by unfold loadScannedSHAs; simp only [hr]; rfl⟩

/-- C7, as stated, fails: on the store "A", empty line, "B" the load stops at the
empty line and returns the set that holds A only, so the well-formed line B that
follows the malformed line is not in the returned set. -/
theorem load_skips_malformed_counterexample :
    loadScannedSHAs (.opened "A\n\nB\n".data) = some (.ok ["A"]) ∧
    WellFormedSHA "B" ∧
    ¬ (∀ r, loadScannedSHAs (.opened "A\n\nB\n".data) = some (.ok r) → "B" ∈ r) := by
  refine ⟨rfl, ⟨by decide, by decide⟩, ?_⟩
  intro h
  exact absurd (h ["A"] rfl) (by decide)

/-- C7, amended.  The load never fails because of the content of the store: on
every content it returns a set and no error.  It does not skip a malformed
line.  Every content is a run of valid lines (spaces, an identifier free of
spaces, spaces, among them a carriage return before the newline) each ended by a
newline, followed either by a rest on which the next `Fscanf` fails at once
(the end of the file, a malformed line such as an empty one, whatever comes
after it) or by a valid last line that the end of the file ends.  The returned
set holds exactly the identifiers of these lines and nothing of the rest.  A
store that does not exist yields the empty set with no error. -/
theorem load_stops_at_first_malformed (ls : List StoreLine) (tail : List Char)
    (hls : ∀ l ∈ ls, l.Valid) (e : ScanError) (htail : Fscanf tail = .error e) :
    loadScannedSHAs (.opened (linesText ls ++ tail)) = some (.ok (shaSet ls)) ∧
    (∀ x, x ∈ shaSet ls ↔ ∃ l ∈ ls, l.sha = x) ∧
    (∀ last : StoreLine, last.Valid →
      loadScannedSHAs (.opened (linesText ls ++ last.text))
        = some (.ok ((shaSet ls).insert last.sha))) ∧
    (∀ content : List Char, ∃ r, loadScannedSHAs (.opened content) = some (.ok r)) ∧
    (∀ content : List Char, ∃ ls2 : List StoreLine, (∀ l ∈ ls2, l.Valid) ∧
      ((∃ tail2 e2, Fscanf tail2 = .error e2 ∧ content = linesText ls2 ++ tail2) ∨
       (∃ last : StoreLine, last.Valid ∧ content = linesText ls2 ++ last.text))) ∧
    (∀ rest, Fscanf ('\n' :: rest) = .error .unexpectedNewline) ∧
    Fscanf [] = .error .eof ∧
    loadScannedSHAs .notExist = some (.ok []) := by
  refine ⟨?_, ?_, ?_, loadScannedSHAs_opened, ?_, Fscanf_empty_line, rfl, rfl⟩
  · unfold loadScannedSHAs
    simp only
    rw [loadLoop_linesText ls tail hls id (loadLoop_failing tail e htail) _ [] (by omega)]
    rfl
  · intro x
    unfold shaSet
    rw [mem_shaSet]
    simp
  · intro last hlast
    unfold loadScannedSHAs
    simp only
    rw [loadLoop_linesText ls last.text hls (fun s => s.insert last.sha)
      (loadLoop_lastLine last hlast) _ [] (by omega)]
    rfl
  · intro content
    exact content_decomp (content.length + 1) content (by omega)

/-- C7 amended, on stores the code receives: on "A", empty line, "B" the
identifier A before the empty line is returned and nothing else; a last line
without newline, CRLF line ends and padded lines are read. -/
theorem load_stops_at_first_malformed_witness :
    loadScannedSHAs (.opened (linesText [{ pre := [], sha := "A", post := [] }] ++ "\nB\n".data))
      = some (.ok ["A"]) ∧
    linesText [{ pre := [], sha := "A", post := [] }] ++ "\nB\n".data = "A\n\nB\n".data ∧
    loadScannedSHAs (.opened "A\nB".data) = some (.ok ["B", "A"]) ∧
    loadScannedSHAs (.opened "A\r\nB\r\n".data) = some (.ok ["B", "A"]) ∧
    loadScannedSHAs (.opened " A\nB \n".data) = some (.ok ["B", "A"]) ∧
    loadScannedSHAs (.opened "A\nB C\nD\n".data) = some (.ok ["A"]) :=
  ⟨(load_stops_at_first_malformed [{ pre := [], sha := "A", post := [] }] "\nB\n".data
    (by
      intro l hl
      rw [List.mem_singleton] at hl
      subst hl
      exact ⟨fun c hc => absurd hc (List.not_mem_nil c), ⟨by decide, by decide⟩,
        fun c hc => absurd hc (List.not_mem_nil c)⟩)
    .unexpectedNewline (Fscanf_empty_line _)).1,
   by decide, rfl, rfl, rfl, rfl⟩

/-! ## Rescans -/

/-- C2 (idempotence of rescans), the part that holds for every run: an
identifier that is in the loaded set is never sent on `commitChan`, whatever
the branches and pages list; a second enumeration over the same host, branches
and page bound, started from the in-memory map `scannedSHAs` left by the first,
sends nothing and leaves that map as it is; and when the store holds the
well-formed identifiers `ws`, one per line, `loadScannedSHAs` returns the set of
`ws` and the enumeration started from it sends none of them. -/
theorem rescan_idempotent (host : ListCommits) (fuel : Nat) (branches scanned : List String) :
    (∀ x ∈ scanned, x ∉ (enumerate host fuel branches scanned).state.commitChan) ∧
    (enumerate host fuel branches
        (enumerate host fuel branches scanned).state.scannedSHAs).state.commitChan = [] ∧
    (enumerate host fuel branches
        (enumerate host fuel branches scanned).state.scannedSHAs).state.scannedSHAs
      = (enumerate host fuel branches scanned).state.scannedSHAs ∧
    (∀ ws : List String, (∀ w ∈ ws, WellFormedSHA w) →
      ∃ loaded, loadScannedSHAs (.opened (storeLines ws)) = some (.ok loaded) ∧
        (∀ x, x ∈ loaded ↔ x ∈ ws) ∧
        ∀ x ∈ ws, x ∉ (enumerate host fuel branches loaded).state.commitChan) := by
  have hinv := enumerate_inv host fuel branches scanned
  have hagain := scanBranches_again host fuel branches
    { scannedSHAs := scanned, commitChan := [], requests := 0 }
    { scannedSHAs := (enumerate host fuel branches scanned).state.scannedSHAs,
      commitChan := [], requests := 0 } rfl (fun x hx => hx)
  refine ⟨fun x hx hin => (hinv.2.1 x hin).2 hx, ?_, ?_, ?_⟩
  · unfold enumerate at hagain ⊢
    rw [hagain, mapState_state]
  · unfold enumerate at hagain ⊢
    rw [hagain, mapState_state]
  · intro ws hws
    have hmem : ∀ x, x ∈ ws.foldl (fun s w => s.insert w) [] ↔ x ∈ ws := by
      intro x
      rw [mem_foldl_insert]
      simp
    refine ⟨ws.foldl (fun s w => s.insert w) [], ?_, hmem, ?_⟩
    · have hl := loadLoop_lines ws [] hws .eof rfl ((storeLines ws).length + 1) []
        (by rw [List.append_nil]; omega)
      rw [List.append_nil] at hl
      unfold loadScannedSHAs
      simp only [hl]
      rfl
    · intro x hx hin
      exact ((enumerate_inv host fuel branches _).2.1 x hin).2 ((hmem x).2 hx)

/-- C2 on the scenario: one branch lists A, B, C and B is in the loaded set;
exactly A and C are sent, in this order, and B is not; a second enumeration
from the map left in memory sends nothing. -/
theorem rescan_idempotent_witness :
    "B" ∈ ["B"] ∧
    enumerate listingABC 1 ["head"] ["B"] =
      .finished { scannedSHAs := ["C", "A", "B"], commitChan := ["A", "C"], requests := 1 } ∧
    "B" ∉ (enumerate listingABC 1 ["head"] ["B"]).state.commitChan ∧
    (enumerate listingABC 1 ["head"]
      (enumerate listingABC 1 ["head"] ["B"]).state.scannedSHAs).state.commitChan = [] :=
  ⟨by decide, by decide,
    (rescan_idempotent listingABC 1 ["head"] ["B"]).1 "B" (by decide),
    (rescan_idempotent listingABC 1 ["head"] ["B"]).2.1⟩

/-- C2, as stated, fails for the set a run leaves behind.  The store holds B and
one branch lists A, B, C; the fetch of A succeeds and the fetch of C fails.  The
first run sends A and C and leaves the store with B and A, because a failed
fetch is not recorded; the second run over the same listing, started from that
store, sends C again. -/
theorem rescan_idempotent_counterexample :
    mainRun listingABC 1 ["head"] regexRules fetchOnlyA "B\n".data
      = some { sent := ["A", "C"], store := "B\nA\n".data } ∧
    mainRun listingABC 1 ["head"] regexRules fetchOnlyA "B\nA\n".data
      = some { sent := ["C"], store := "B\nA\n".data } ∧
    ¬ ((mainRun listingABC 1 ["head"] regexRules fetchOnlyA "B\nA\n".data).map (fun r => r.sent)
      = some []) := by
  decide

end LeakScanner
